import Mathlib

/-!
rsocket-go: frame codec and length-based frame decoder.

A shallow embedding of `utils.go` (24-bit integer codec, metadata/data slicing,
the length-based streaming frame decoder) and of
`framing/frame_request_response.go` (the request-response frame constructor),
followed by theorems about them.

Conventions of the embedding:

* a Go `[]byte` is a `List UInt8`; a `nil` slice result that the caller can tell
  apart from an empty one is an `Option`;
* Go `int` values that are never negative (lengths, offsets, decoded 24-bit
  numbers) are `Nat`; `encodeU24` takes an `Int` because its argument is
  converted to `uint32`;
* a run-time panic (index or slice out of range) is `none` / `Result.panicked`.
-/

namespace Rsocket

/-- A Go `byte`. -/
abbrev Byte := UInt8

/-! ## Constants (`utils.go`, lines 14-18) -/

def headerLen : Nat := 6
def defaultBuffSize : Nat := 64 * 1024
def maxBuffSize : Nat := 16 * 1024 * 1024 + 3

/-! ## The 24-bit integer codec (`utils.go`, lines 77-85) -/

/-- `decodeU24(bs, offset)`: `int(bs[offset])<<16 + int(bs[offset+1])<<8 + int(bs[offset+2])`.
Each index expression panics when it is out of range (`none`). -/
def decodeU24 (bs : List Byte) (offset : Nat) : Option Nat := do
  let b0 ← bs[offset]?
  let b1 ← bs[offset + 1]?
  let b2 ← bs[offset + 2]?
  pure ((b0.toNat <<< 16) + (b1.toNat <<< 8) + b2.toNat)

/-- Go conversion `uint32(n)` of an `int`: reduction modulo `2^32`. -/
def uint32 (n : Int) : Nat := (n % 4294967296).toNat

/-- Go conversion `byte(v)` of an unsigned integer: the low 8 bits. -/
def byte (v : Nat) : Byte := UInt8.ofNat v

/-- `binary.BigEndian.PutUint32(b, v)` on a 4-byte slice: the bytes written. -/
def putUint32 (v : Nat) : List Byte :=
  [byte (v >>> 24), byte (v >>> 16), byte (v >>> 8), byte v]

/-- `encodeU24(n)`: a 4-byte buffer receives `uint32(n)` big-endian and `b[1:]` is
returned. -/
def encodeU24 (n : Int) : List Byte :=
  let b := putUint32 (uint32 n)
  b.drop 1

/-! ## Flags, header and base frame

The declarations of `FrameFlag`, `Header`, `BaseFrame` and of the byte buffer are
not among the source files; they are modelled from the specification. -/

/-- Modelled from the spec: `FrameFlags`, a bitset held in the low bits of the
header's second word (a Go unsigned integer, here its value). -/
abbrev FrameFlag := Nat

/-- Modelled from the spec: the `Metadata` flag bit, "its presence means the body
begins with a 24-bit metadata length". The declaration is missing from the
sources; the value is the protocol's bit 8. -/
def FlagMetadata : FrameFlag := 1 <<< 8

/-- Modelled from the spec: `f.Check(flag)`, whether every bit of `flag` is set in
`f` (the declaration is missing from the sources). -/
def FrameFlag.Check (f flag : FrameFlag) : Bool := flag &&& f == flag

/-- Modelled from the spec: `newFlags(flags...)`, "start with caller-supplied
flags": the union of the variadic flag arguments (the declaration is missing from
the sources). -/
def newFlags (flags : List FrameFlag) : FrameFlag := flags.foldl (· ||| ·) 0

/-- Modelled from the spec: `FrameType`, a 6-bit tag treated as opaque (the
declaration is missing from the sources). -/
abbrev FrameType := Nat

/-- Modelled from the spec: the tag of the request-response frame type (the
declaration is missing from the sources; the value is the protocol's `0x04`). -/
def FrameTypeRequestResponse : FrameType := 4

/-- Modelled from the spec: `FrameHeader`, the immutable value
`{ streamID, type, flags }` (the declaration is missing from the sources). -/
structure Header where
  streamID : Nat
  frameType : FrameType
  flags : FrameFlag
deriving DecidableEq, Repr

/-- Modelled from the spec: the accessor `header.Flags()`. -/
def Header.Flags (h : Header) : FrameFlag := h.flags

/-- Modelled from the spec: `NewFrameHeader(id, type, flags)`, "construct header
from (streamID, type-specific tag, flags)" (the declaration is missing from the
sources). -/
def NewFrameHeader (id : Nat) (t : FrameType) (fg : FrameFlag) : Header :=
  { streamID := id, frameType := t, flags := fg }

/-- Modelled from the spec: `ByteBuffer.WriteUint24(n)`, which "writes
`encodeU24(n)` into the body buffer" (the byte buffer of package `common` is
missing from the sources). The buffer is represented by its contents. -/
def WriteUint24 (bf : List Byte) (n : Nat) : List Byte := bf ++ encodeU24 (n : Int)

/-- Modelled from the spec: `ByteBuffer.Write(bs)`, which appends `bs` verbatim
(the byte buffer of package `common` is missing from the sources). -/
def Write (bf : List Byte) (bs : List Byte) : List Byte := bf ++ bs

/-- Modelled from the spec: `Frame` (Base Frame), `{ header, body }` (the
declaration is missing from the sources). -/
structure BaseFrame where
  header : Header
  body : List Byte
deriving DecidableEq, Repr

/-! ## The request-response constructor (`framing/frame_request_response.go`, lines 48-65) -/

/-- `NewFrameRequestResponse(id, data, metadata, flags...)`. -/
def NewFrameRequestResponse (id : Nat) (data metadata : List Byte)
    (flags : List FrameFlag) : BaseFrame :=
  let fg := newFlags flags
  let bf : List Byte := []
  let (fg, bf) :=
    if metadata.length > 0 then
      (fg ||| FlagMetadata, Write (WriteUint24 bf metadata.length) metadata)
    else (fg, bf)
  let bf := if data.length > 0 then Write bf data else bf
  { header := NewFrameHeader id FrameTypeRequestResponse fg, body := bf }

/-! ## Slicing metadata and data out of a body (`utils.go`, lines 87-102) -/

/-- `sliceMetadataAndData(header, raw, offset)`. The first component is `none` for
a `nil` metadata slice (flag unset) and `some` for the slice made by
`make([]byte, l)`. `none` as a whole is a panic: `raw[offset:]` needs
`offset ≤ len(raw)`, `decodeU24` needs three bytes at `offset`, and of the two
slice expressions `raw[offset:offset+l]` (bounded by the capacity) and
`raw[offset+l:]` (bounded by the length) the second is the stricter, so the call
panics exactly when `offset+l > len(raw)`. -/
def sliceMetadataAndData (header : Header) (raw : List Byte) (offset : Nat) :
    Option (Option (List Byte) × List Byte) :=
  if !header.Flags.Check FlagMetadata then
    if offset ≤ raw.length then some (none, raw.drop offset) else none
  else do
    let l ← decodeU24 raw offset
    let offset := offset + 3
    if offset + l ≤ raw.length then
      some (some ((raw.drop offset).take l), raw.drop (offset + l))
    else none

/-! ## Slicing the metadata alone (`utils.go`, lines 104-114) -/

/-- `sliceMetadata(header, raw, offset)`. The result is `some none` for the `nil`
slice returned when the flag is unset and `some (some _)` for the slice made by
`make`; `none` is a panic. Go bounds the slice expression `raw[offset:offset+l]` by
the capacity of `raw`, not by its length, so the bytes of the backing array that lie
between `len(raw)` and `cap(raw)` are part of the input: they are `spare`. The index
expressions of `decodeU24` are bounded by the length. -/
def sliceMetadata (header : Header) (raw spare : List Byte) (offset : Nat) :
    Option (Option (List Byte)) :=
  if !header.Flags.Check FlagMetadata then some none
  else do
    let l ← decodeU24 raw offset
    let offset := offset + 3
    if offset + l ≤ raw.length + spare.length then
      some (some (((raw ++ spare).drop offset).take l))
    else none

/-! ## Errors -/

/-- Go `error` values that occur in the decoder. -/
inductive GoError where
  /-- `io.EOF` -/
  | EOF
  /-- `fmt.Errorf("bad frame length: %d", frameLength)` -/
  | badFrameLength (frameLength : Nat)
  /-- `bufio.ErrTooLong` -/
  | ErrTooLong
  /-- `bufio.ErrAdvanceTooFar` -/
  | ErrAdvanceTooFar
  /-- `io.ErrNoProgress` -/
  | ErrNoProgress
  /-- an error returned by `asHeader` -/
  | malformedHeader
  /-- a `*net.OpError`: `cause` is the text `Err.Error()` of its field `Err`, and
  `none` when that field is `nil` -/
  | opError (cause : Option String)
  /-- any other error value (handler errors, context errors, I/O errors) -/
  | other (msg : String)
deriving DecidableEq, Repr

/-! ## The split function (`utils.go`, lines 25-42) -/

/-- The result `(advance, token, err)` of a `bufio.SplitFunc`; a `nil` token or a
`nil` error is `none`. -/
structure SplitResult where
  advance : Nat
  token : Option (List Byte)
  err : Option GoError
deriving DecidableEq, Repr

/-- The split function installed by `Handle`. A bare `return` yields the zero
values `(0, nil, nil)` of the named results; `none` is a panic of `decodeU24`. -/
def splitFunc (data : List Byte) (atEOF : Bool) : Option SplitResult :=
  if atEOF then some ⟨0, none, none⟩
  else if data.length < 3 then some ⟨0, none, none⟩
  else do
    let frameLength ← decodeU24 data 0
    if frameLength < 1 then some ⟨0, none, some (.badFrameLength frameLength)⟩
    else
      let frameSize := frameLength + 3
      if frameSize ≤ data.length then some ⟨frameSize, some (data.take frameSize), none⟩
      else some ⟨0, none, none⟩

/-- The expression `p.scanner.Bytes()[3:]` of the dispatch loop (line 51): the token
without its 3-byte length; `none` is the slice panic on a token shorter than 3. -/
def recordOf (token : List Byte) : Option (List Byte) :=
  if 3 ≤ token.length then some (token.drop 3) else none

/-! ## Header parsing -/

/-- Modelled from the spec: `asHeader(bs)`, the header `unpack` of §4.2 (the
function is missing from the sources): it fails when fewer than 6 bytes are
supplied; otherwise the first 32-bit big-endian word holds the stream id in its
low 31 bits and the following 16-bit big-endian word holds a 6-bit type above a
10-bit flag field. -/
def asHeader (bs : List Byte) : Except GoError Header :=
  match bs with
  | b0 :: b1 :: b2 :: b3 :: b4 :: b5 :: _ =>
    let id := (b0.toNat <<< 24) + (b1.toNat <<< 16) + (b2.toNat <<< 8) + b3.toNat
    let n := (b4.toNat <<< 8) + b5.toNat
    .ok { streamID := id &&& 0x7FFFFFFF, frameType := n >>> 10, flags := n &&& 0x3FF }
  | _ => .error .malformedHeader

/-! ## The byte source and `bufio.Scanner`

`Handle` drives a `bufio.Scanner` over an `io.Reader`. Both belong to the Go
standard library; they are modelled here as far as `Handle` exercises them. -/

/-- An `io.Reader`, given by what it has to deliver: `pending` lists the successive
batches of bytes that become available, each with the error the reader reports
together with the last byte of the batch (`none` for `nil`); once `pending` is
used up every `Read` returns `(0, final)`. -/
structure Reader where
  pending : List (List Byte × Option GoError)
  final : GoError
deriving DecidableEq, Repr

/-- `r.Read(p)` with `len(p) = room`: the bytes stored in `p`, the error, and the
reader afterwards. A batch larger than `room` is delivered in part, with a `nil`
error, and its remainder is kept for the next call. -/
def Reader.Read (r : Reader) (room : Nat) : List Byte × Option GoError × Reader :=
  match r.pending with
  | [] => ([], some r.final, r)
  | (c, e) :: rest =>
    if c.length ≤ room then (c, e, { r with pending := rest })
    else (c.take room, none, { r with pending := (c.drop room, e) :: rest })

/-- The number of `Read` calls a reader can answer before it is used up, at most. -/
def Reader.size (r : Reader) : Nat := (r.pending.map (fun c => c.1.length + 1)).sum

/-- A reader that delivers the given pieces one per `Read`, each with a `nil` error,
and then reports `io.EOF` on its own: a byte stream cut into reads, with a clean
end of stream. -/
def Reader.clean (pieces : List (List Byte)) : Reader :=
  { pending := pieces.map (fun c => (c, none)), final := .EOF }

/-- The state of a `bufio.Scanner`: `data` is the window `buf[start:end]` of unread
bytes, `bufLen` is `len(buf)`. -/
structure Scanner where
  r : Reader
  data : List Byte
  start : Nat
  bufLen : Nat
  maxTokenSize : Nat
  token : Option (List Byte)
  err : Option GoError
deriving DecidableEq, Repr

/-- The index `s.end`. -/
def Scanner.stop (s : Scanner) : Nat := s.start + s.data.length

/-- `bufio`: `maxConsecutiveEmptyReads`. -/
def maxConsecutiveEmptyReads : Nat := 100

/-- `bufio`: `startBufSize`. -/
def startBufSize : Nat := 4096

/-- The largest Go `int` (64-bit). -/
def maxInt : Nat := 2 ^ 63 - 1

/-- `s.setErr(err)`: records the first error that is not `io.EOF`. -/
def Scanner.setErr (s : Scanner) (e : GoError) : Scanner :=
  if s.err = none ∨ s.err = some .EOF then { s with err := some e } else s

/-- `s.Err()`: the first non-EOF error met by the scanner. -/
def Scanner.Err (s : Scanner) : Option GoError :=
  if s.err = some .EOF then none else s.err

/-- The read loop at the end of the body of `Scan`:
`for loop := 0; ; { n, err := s.r.Read(s.buf[s.end:len(s.buf)]) ... }`.
The argument counts down the empty reads that are still tolerated, that is
`maxConsecutiveEmptyReads - loop`. The reader of this model never reports more
bytes than it was given room for, so `ErrBadReadCount` does not arise. -/
def Scanner.readLoop : Nat → Scanner → Scanner
  | k, s =>
    let (bs, err, r) := s.r.Read (s.bufLen - s.stop)
    let s := { s with r := r, data := s.data ++ bs }
    match err with
    | some e => s.setErr e
    | none =>
      if bs.length > 0 then s
      else
        match k with
        | 0 => s.setErr .ErrNoProgress
        | k + 1 => Scanner.readLoop k s

/-- What one call of `Scan` comes to. -/
inductive ScanResult where
  /-- `Scan` returned `true`; the token is in the scanner -/
  | found (s : Scanner)
  /-- `Scan` returned `false` -/
  | done (s : Scanner)
  /-- the split function panicked -/
  | panicked
  /-- the bound on the iterations of the model was reached (never the case when the
  bound is the one `Scanner.Scan` supplies) -/
  | outOfFuel
deriving DecidableEq, Repr

/-- The first half of the body of the loop of `Scan`: "see if we can get a token
with what we already have". `Sum.inl` is a `return`, `Sum.inr` falls through to
reading more data. The split function is the one `Handle` installs; it never
returns `ErrFinalToken` and never a token at end of input, so those branches of
the library code are left out. -/
def Scanner.trySplit (s : Scanner) : ScanResult ⊕ Scanner :=
  if s.data.length > 0 || s.err.isSome then
    match splitFunc s.data s.err.isSome with
    | none => .inl .panicked
    | some ⟨_, _, some e⟩ => .inl (.done (s.setErr e))
    | some ⟨advance, token, none⟩ =>
      if advance > s.data.length then .inl (.done (s.setErr .ErrAdvanceTooFar))
      else
        let s := { s with start := s.start + advance, data := s.data.drop advance,
                          token := token }
        match token with
        | some _ => .inl (.found s)
        | none => .inr s
  else .inr s

/-- The second half of the body of the loop of `Scan`: give up when an error is
pending, otherwise shift the window, grow the buffer when it is full, and read. -/
def Scanner.readMore (s : Scanner) : ScanResult ⊕ Scanner :=
  if s.err.isSome then .inl (.done { s with start := 0, data := [] })
  else
    let s :=
      if s.start > 0 ∧ (s.stop = s.bufLen ∨ s.start > s.bufLen / 2) then
        { s with start := 0 }
      else s
    if s.stop = s.bufLen then
      if s.bufLen ≥ s.maxTokenSize ∨ s.bufLen > maxInt / 2 then
        .inl (.done (s.setErr .ErrTooLong))
      else
        let newSize := s.bufLen * 2
        let newSize := if newSize = 0 then startBufSize else newSize
        let newSize := min newSize s.maxTokenSize
        .inr (Scanner.readLoop maxConsecutiveEmptyReads { s with start := 0, bufLen := newSize })
    else .inr (Scanner.readLoop maxConsecutiveEmptyReads s)

/-- The loop of `Scan`, bounded by a number of iterations. -/
def Scanner.scanLoop : Nat → Scanner → ScanResult
  | 0, _ => .outOfFuel
  | fuel + 1, s =>
    match s.trySplit with
    | .inl res => res
    | .inr s =>
      match s.readMore with
      | .inl res => res
      | .inr s => Scanner.scanLoop fuel s

/-- `s.Scan()`. Every iteration of the loop that does not return performs a `Read`,
which either advances the reader or records an error that ends the next
iteration, so `s.r.size + 2` iterations suffice. -/
def Scanner.Scan (s : Scanner) : ScanResult := Scanner.scanLoop (s.r.size + 2) s

/-! ## `Handle` (`utils.go`, lines 24-69) -/

/-- One handler invocation: the header and the record passed to `fn`. -/
abbrev Invocation := Header × List Byte

/-- A `FrameHandler`, `func(h *Header, raw []byte) error`. A Go handler may keep
state; its answer is a function of the invocations made before and of the current
arguments. `none` is `nil`. -/
abbrev FrameHandler := List Invocation → Header → List Byte → Option GoError

/-- The `context.Context` as `Handle` observes it: `ctx k = some e` when, at the
`select` that follows the `k`-th successful `Scan` (counting from 0), the channel
`ctx.Done()` is closed and `ctx.Err()` is `e`. -/
abbrev Context := Nat → Option GoError

/-- What a call of `Handle` comes to. -/
inductive Result where
  /-- `Handle` returned this error (`none` for `nil`) -/
  | returned (err : Option GoError)
  /-- a run-time panic -/
  | panicked
  /-- the bound on the iterations of the model was reached -/
  | outOfFuel
deriving DecidableEq, Repr

/-- Go `strings.EqualFold(s, t)` for a `t` made of lower-case ASCII letters and
spaces: two runes are equal under simple case folding when they are the same, when
one is the upper-case ASCII form of the other, or when the first is the Kelvin sign
`U+212A` (folding to `k`) or the long s `U+017F` (folding to `s`). -/
def foldRune (c : Char) : Char :=
  if 'A' ≤ c ∧ c ≤ 'Z' then Char.ofNat (c.toNat + 32)
  else if c.toNat = 0x212A then 'k'
  else if c.toNat = 0x017F then 's'
  else c

/-- The test of line 62:
`foo, ok := err.(*net.OpError); ok && strings.EqualFold(foo.Err.Error(), "use of closed network connection")`.
The field `foo.Err` is used without a nil check: `none` is the nil dereference panic
of `foo.Err.Error()` on a `*net.OpError` whose `Err` is `nil`. -/
def isClosedConn (err : GoError) : Option Bool :=
  match err with
  | .opError none => none
  | .opError (some cause) =>
    some (cause.toList.map foldRune == "use of closed network connection".toList)
  | _ => some false

/-- The code after the loop (lines 61-68): `nil` when the scanner met no error but
`io.EOF`, `nil` for the closed-connection error, the error itself otherwise (after
logging it), and a panic when the test of line 62 panics. -/
def afterScan (s : Scanner) : Result :=
  match s.Err with
  | some err =>
    match isClosedConn err with
    | none => .panicked
    | some true => .returned none
    | some false => .returned (some err)
  | none => .returned none

/-- The body of the loop (lines 46-59) for the token of the scanner: the handler
invocations made so far, extended by the one this record causes, and `some res`
when the body returns from `Handle`. -/
def dispatch (ctx : Context) (fn : FrameHandler) (tr : List Invocation)
    (token : Option (List Byte)) : List Invocation × Option Result :=
  match ctx tr.length with
  | some e => (tr, some (.returned (some e)))
  | none =>
    match token.bind recordOf with
    | none => (tr, some .panicked)
    | some data =>
      match asHeader data with
      | .error err => (tr, some (.returned (some err)))
      | .ok h =>
        match fn tr h data with
        | some err => (tr ++ [(h, data)], some (.returned (some err)))
        | none => (tr ++ [(h, data)], none)

/-- The loop `for p.scanner.Scan() { ... }` followed by lines 61-68, bounded by a
number of iterations. The first component of the result lists the handler
invocations in the order they were made. -/
def handleLoop (ctx : Context) (fn : FrameHandler) :
    Nat → Scanner → List Invocation → List Invocation × Result
  | 0, _, tr => (tr, .outOfFuel)
  | fuel + 1, s, tr =>
    match s.Scan with
    | .outOfFuel => (tr, .outOfFuel)
    | .panicked => (tr, .panicked)
    | .done s => (tr, afterScan s)
    | .found s =>
      match dispatch ctx fn tr s.token with
      | (tr, some res) => (tr, res)
      | (tr, none) => handleLoop ctx fn fuel s tr

/-- The scanner `Handle` starts from: `bufio.NewScanner(r)` after
`Split(...)` and `Buffer(make([]byte, 0, defaultBuffSize), maxBuffSize)`, which
sets `s.buf = buf[0:cap(buf)]`. -/
def newScanner (r : Reader) : Scanner :=
  { r := r, data := [], start := 0, bufLen := defaultBuffSize,
    maxTokenSize := maxBuffSize, token := none, err := none }

/-- `newLengthBasedFrameDecoder(r).Handle(ctx, fn)`: the handler invocations made
and the outcome. Every successful `Scan` consumes at least one byte of the
source, so `r.size + 1` iterations suffice. -/
def Handle (r : Reader) (ctx : Context) (fn : FrameHandler) : List Invocation × Result :=
  handleLoop ctx fn (r.size + 1) (newScanner r) []

/-! ## Notions used to state the properties -/

/-- The wire form of one record: its 24-bit length followed by its bytes. -/
def wire (record : List Byte) : List Byte := encodeU24 (record.length : Int) ++ record

/-- The wire form of a sequence of records, concatenated in order. -/
def wireAll (records : List (List Byte)) : List Byte := (records.map wire).flatten

/-- All the bytes a reader still has to deliver. -/
def Reader.bytes (r : Reader) : List Byte := (r.pending.map (fun c => c.1)).flatten

/-- The bytes a scanner has not consumed yet: its window followed by what its
reader still has to deliver. -/
def Scanner.stream (s : Scanner) : List Byte := s.data ++ s.r.bytes

/-- What stands at the front of a byte string under the framing rule. -/
inductive Frame where
  /-- a complete record with declared length `L ≥ 1` -/
  | record (L : Nat)
  /-- a length prefix that decodes to 0 -/
  | bad
  /-- fewer than 3 bytes, or fewer bytes than the prefix declares -/
  | short
deriving DecidableEq, Repr

/-- The front of a byte string under the framing rule. -/
def classify (st : List Byte) : Frame :=
  match decodeU24 st 0 with
  | none => .short
  | some L => if L < 1 then .bad else if L + 3 ≤ st.length then .record L else .short

/-- A reader that delivers non-empty batches with a `nil` error and then `io.EOF`. -/
def Reader.IsClean (r : Reader) : Prop :=
  r.final = .EOF ∧ ∀ p ∈ r.pending, p.2 = none ∧ p.1 ≠ []

/-- A reader that delivers non-empty batches with a `nil` error until it is used up;
what it reports then, `io.EOF` or a failure, is left open. -/
def Reader.IsSteady (r : Reader) : Prop :=
  ∀ p ∈ r.pending, p.2 = none ∧ p.1 ≠ []

/-- A reader that delivers the given pieces one per `Read`, each with a `nil` error,
and whose next `Read` fails with `e`, delivering nothing. -/
def Reader.failing (pieces : List (List Byte)) (e : GoError) : Reader :=
  { pending := pieces.map (fun c => (c, none)), final := e }

/-- What `Handle` comes to when the scanner stops on the error `e` of the reader
(lines 61-68): `nil` for `io.EOF` and for the closed-connection error, a panic for a
`*net.OpError` whose `Err` is `nil`, `e` itself otherwise. -/
def endOfStream (e : GoError) : Result :=
  if e = .EOF then .returned none
  else
    match isClosedConn e with
    | none => .panicked
    | some true => .returned none
    | some false => .returned (some e)

/-- A reader none of whose errors is a `*net.OpError` with a `nil` field `Err`. -/
def Reader.NoNilCause (r : Reader) : Prop :=
  r.final ≠ .opError none ∧ ∀ p ∈ r.pending, p.2 ≠ some (.opError none)

/-- A scanner that holds no `*net.OpError` with a `nil` field `Err` and cannot be
handed one by its reader. -/
def Scanner.NoNilCause (s : Scanner) : Prop :=
  s.err ≠ some (.opError none) ∧ s.r.NoNilCause

/-- The scanner states `Handle` passes through between two calls of `Scan` while
reading from a steady reader. -/
structure Scanner.Inv (s : Scanner) : Prop where
  err_none : s.err = none
  window : s.start + s.data.length ≤ s.bufLen
  bufLen_pos : 0 < s.bufLen
  bufLen_le : s.bufLen ≤ maxBuffSize
  maxTok : s.maxTokenSize = maxBuffSize
  steady : s.r.IsSteady

/-- What `Scan` comes to on a scanner whose unconsumed bytes are `st`, read from a
steady reader that ends with `final`: the first complete record of `st` as the
token, the bad-frame-length error, or the error the reader ends with. -/
def ScanPost (st : List Byte) (final : GoError) (out : ScanResult) : Prop :=
  match classify st with
  | .record L => ∃ s2 : Scanner, out = .found s2 ∧ s2.Inv ∧
      s2.token = some (st.take (L + 3)) ∧ s2.stream = st.drop (L + 3) ∧ s2.r.final = final
  | .bad => ∃ s2 : Scanner, out = .done s2 ∧ s2.err = some (.badFrameLength 0)
  | .short => ∃ s2 : Scanner, out = .done s2 ∧ s2.err = some final

/-- The handler invocations `invs` are one per record, in order, each with the bytes
of its record and the header parsed from it. -/
def Delivers (invs : List Invocation) (records : List (List Byte)) : Prop :=
  List.Forall₂ (fun inv record => asHeader record = .ok inv.1 ∧ inv.2 = record) invs records

/-- A record whose header parses and whose length fits the 24-bit length field. -/
def ValidRecord (record : List Byte) : Prop :=
  headerLen ≤ record.length ∧ record.length ≤ 16777215

instance (record : List Byte) : Decidable (ValidRecord record) :=
  inferInstanceAs (Decidable (_ ∧ _))

/-- Every handler invocation listed in `tr` returned `nil`. -/
def AllNil (fn : FrameHandler) (tr : List Invocation) : Prop :=
  ∀ j inv, tr[j]? = some inv → fn (tr.take j) inv.1 inv.2 = none

/-- The handler invocations of a run are all `nil`, or all `nil` but the last, whose
error the run returned. -/
def TracePost (fn : FrameHandler) (out : List Invocation × Result) : Prop :=
  AllNil fn out.1 ∨
  ∃ pre h d e, out.1 = pre ++ [(h, d)] ∧ AllNil fn pre ∧ fn pre h d = some e ∧
    out.2 = .returned (some e)

/-- Whether the loop of `Handle`, run without cancellation from the scanner `s` after
the invocations `tr`, extracts a record (a `Scan` returns `true`) at a moment when
exactly `i` invocations have been made. Every record extracted before that moment
was dispatched to the handler, so this record is the `i`-th one extracted, counting
from 0; whether its header parses plays no part. -/
def extractsLoop (fn : FrameHandler) (i : Nat) : Nat → Scanner → List Invocation → Bool
  | 0, _, _ => false
  | fuel + 1, s, tr =>
    match s.Scan with
    | .found s2 =>
      if tr.length = i then true
      else
        match dispatch (fun _ => none) fn tr s2.token with
        | (tr2, none) => extractsLoop fn i fuel s2 tr2
        | (_, some _) => false
    | _ => false

/-- Whether `Handle`, run on `r` without cancellation, extracts an `i`-th record
(counting from 0). -/
def Extracts (r : Reader) (fn : FrameHandler) (i : Nat) : Bool :=
  extractsLoop fn i (r.size + 1) (newScanner r) []

/-! ## Theorems: the integer codec -/

theorem byte_toNat (v : Nat) : (byte v).toNat = v % 256 := rfl

theorem Byte_toNat_lt (b : Byte) : b.toNat < 256 := b.toNat_lt

theorem byte_eq_of_toNat_eq {a b : Byte} (h : a.toNat = b.toNat) : a = b := by
  cases a with | mk x => cases b with | mk y =>
  simp only [UInt8.toNat] at h
  exact congrArg UInt8.mk (BitVec.eq_of_toNat_eq h)

theorem encodeU24_eq (n : Int) :
    encodeU24 n = [byte (uint32 n >>> 16), byte (uint32 n >>> 8), byte (uint32 n)] := rfl

theorem encodeU24_length (n : Int) : (encodeU24 n).length = 3 := rfl

theorem decodeU24_cons3 (a b c : Byte) (post : List Byte) :
    decodeU24 (a :: b :: c :: post) 0 = some ((a.toNat <<< 16) + (b.toNat <<< 8) + c.toNat) := by
  simp [decodeU24]

theorem decodeU24_append_left (pre rest : List Byte) :
    decodeU24 (pre ++ rest) pre.length = decodeU24 rest 0 := by
  have h : ∀ k, (pre ++ rest)[pre.length + k]? = rest[k]? := by
    intro k
    rw [List.getElem?_append_right (by omega)]
    congr 1
    omega
  have h0 := h 0
  simp only [Nat.add_zero] at h0
  simp only [decodeU24, h0, h 1, h 2, Nat.zero_add]

theorem decodeU24_encodeU24 (n : Nat) (h : n ≤ 16777215) (post : List Byte) :
    decodeU24 (encodeU24 (n : Int) ++ post) 0 = some n := by
  rw [encodeU24_eq]
  simp only [List.cons_append, List.nil_append, decodeU24_cons3, byte_toNat, uint32,
    Nat.shiftLeft_eq, Nat.shiftRight_eq_div_pow, Option.some.injEq]
  omega

/-! ## Theorems: flags and the constructor -/

theorem check_metadata_eq_testBit (f : FrameFlag) :
    FrameFlag.Check f FlagMetadata = f.testBit 8 := by
  have h2 : FlagMetadata = 2 ^ 8 := by decide
  unfold FrameFlag.Check
  rw [h2]
  cases hb : f.testBit 8
  · rw [beq_eq_false_iff_ne]
    intro h
    have := congrArg (fun x => x.testBit 8) h
    simp only [Nat.testBit_and, Nat.testBit_two_pow_self, hb] at this
    exact Bool.noConfusion this
  · rw [beq_iff_eq]
    apply Nat.eq_of_testBit_eq
    intro i
    rw [Nat.testBit_and, Nat.testBit_two_pow]
    by_cases hi : 8 = i
    · subst hi; simp [hb]
    · simp [hi]

theorem newFlags_testBit (flags : List FrameFlag) (i : Nat) :
    (newFlags flags).testBit i = flags.any (fun f => f.testBit i) := by
  have h : ∀ (l : List FrameFlag) (a : Nat),
      (l.foldl (· ||| ·) a).testBit i = (a.testBit i || l.any (fun f => f.testBit i)) := by
    intro l
    induction l with
    | nil => intro a; simp
    | cons x xs ih => intro a; simp [ih, Nat.testBit_or, Bool.or_assoc]
  simp [newFlags, h]

theorem check_or_metadata (fg : FrameFlag) :
    FrameFlag.Check (fg ||| FlagMetadata) FlagMetadata = true := by
  rw [check_metadata_eq_testBit, Nat.testBit_or]
  have : FlagMetadata.testBit 8 = true := by decide
  simp [this]

theorem newFlags_check_false (flags : List FrameFlag)
    (h : ∀ f ∈ flags, FrameFlag.Check f FlagMetadata = false) :
    FrameFlag.Check (newFlags flags) FlagMetadata = false := by
  rw [check_metadata_eq_testBit, newFlags_testBit]
  simp only [List.any_eq_false]
  intro f hf
  have := h f hf
  rw [check_metadata_eq_testBit] at this
  simp [this]

theorem NewFrameRequestResponse_nil (id : Nat) (data : List Byte) (flags : List FrameFlag) :
    NewFrameRequestResponse id data [] flags
      = { header := NewFrameHeader id FrameTypeRequestResponse (newFlags flags), body := data } := by
  cases data <;> simp [NewFrameRequestResponse, Write]

theorem NewFrameRequestResponse_cons (id : Nat) (data metadata : List Byte)
    (flags : List FrameFlag) (h : metadata ≠ []) :
    NewFrameRequestResponse id data metadata flags
      = { header := NewFrameHeader id FrameTypeRequestResponse (newFlags flags ||| FlagMetadata),
          body := encodeU24 (metadata.length : Int) ++ metadata ++ data } := by
  have hpos : metadata.length > 0 := List.length_pos.mpr h
  cases data <;> simp [NewFrameRequestResponse, Write, WriteUint24, hpos]

/-! ## Theorems: the split function -/

theorem splitFunc_short (buf : List Byte) (h : buf.length < 3) :
    splitFunc buf false = some ⟨0, none, none⟩ := by
  simp [splitFunc, h]

theorem decodeU24_isSome_iff (bs : List Byte) (o : Nat) :
    (∃ L, decodeU24 bs o = some L) ↔ o + 3 ≤ bs.length := by
  constructor
  · rintro ⟨L, h⟩
    simp only [decodeU24, Option.bind_eq_bind, Option.pure_def, Option.bind_eq_some] at h
    obtain ⟨b0, -, b1, -, b2, h2, -⟩ := h
    have := (List.getElem?_eq_some.mp h2).1
    omega
  · intro h
    have h0 : o < bs.length := by omega
    have h1 : o + 1 < bs.length := by omega
    have h2 : o + 2 < bs.length := by omega
    simp [decodeU24, List.getElem?_eq_getElem, h0, h1, h2]

theorem decodeU24_lt (bs : List Byte) (o L : Nat) (h : decodeU24 bs o = some L) :
    L ≤ 16777215 := by
  simp only [decodeU24, Option.bind_eq_bind, Option.pure_def, Option.bind_eq_some,
    Option.some.injEq] at h
  obtain ⟨b0, -, b1, -, b2, -, rfl⟩ := h
  have := Byte_toNat_lt b0
  have := Byte_toNat_lt b1
  have := Byte_toNat_lt b2
  simp only [Nat.shiftLeft_eq]
  omega

theorem splitFunc_long (buf : List Byte) (L : Nat) (h : decodeU24 buf 0 = some L) :
    splitFunc buf false =
      some (if L < 1 then ⟨0, none, some (.badFrameLength L)⟩
        else if L + 3 ≤ buf.length then ⟨L + 3, some (buf.take (L + 3)), none⟩
        else ⟨0, none, none⟩) := by
  have h3 : ¬ buf.length < 3 := by
    have := (decodeU24_isSome_iff buf 0).mp ⟨L, h⟩
    omega
  simp only [splitFunc, h3, h, Bool.false_eq_true, if_false, Option.bind_eq_bind,
    Option.some_bind]
  split <;> [rfl; split] <;> rfl

theorem decodeU24_zero_iff (buf : List Byte) :
    decodeU24 buf 0 = some 0 ↔ buf.take 3 = [0, 0, 0] := by
  match buf with
  | [] => simp [decodeU24]
  | [a] => simp [decodeU24]
  | [a, b] => simp [decodeU24]
  | a :: b :: c :: rest =>
    rw [decodeU24_cons3]
    simp only [List.take_succ_cons, List.take_zero, Option.some.injEq, List.cons.injEq,
      and_true, Nat.shiftLeft_eq]
    constructor
    · intro h
      refine ⟨byte_eq_of_toNat_eq ?_, byte_eq_of_toNat_eq ?_, byte_eq_of_toNat_eq ?_⟩ <;>
        · show _ = 0
          omega
    · rintro ⟨rfl, rfl, rfl⟩
      rfl

/-! ## Theorems: the framing rule on byte strings -/

theorem classify_of_decode (st : List Byte) (L : Nat) (h : decodeU24 st 0 = some L) :
    classify st = if L < 1 then .bad else if L + 3 ≤ st.length then .record L else .short := by
  simp [classify, h]

theorem classify_short_of_length (st : List Byte) (h : st.length < 3) : classify st = .short := by
  have : decodeU24 st 0 = none := by
    cases hd : decodeU24 st 0 with
    | none => rfl
    | some L =>
      have := (decodeU24_isSome_iff st 0).mp ⟨L, hd⟩
      omega
  simp [classify, this]

theorem classify_record (st : List Byte) (L : Nat) (h : classify st = .record L) :
    decodeU24 st 0 = some L ∧ 1 ≤ L ∧ L + 3 ≤ st.length := by
  unfold classify at h
  split at h
  · cases h
  · rename_i L2 hL2
    split at h
    · cases h
    · split at h
      · cases h
        exact ⟨hL2, by omega, by assumption⟩
      · cases h

theorem classify_bad (st : List Byte) (h : classify st = .bad) : decodeU24 st 0 = some 0 := by
  unfold classify at h
  split at h
  · cases h
  · rename_i L2 hL2
    split at h
    · have : L2 = 0 := by omega
      rw [hL2, this]
    · split at h <;> cases h

theorem classify_short (st : List Byte) (h : classify st = .short) :
    st.length < 3 ∨ ∃ L, decodeU24 st 0 = some L ∧ 1 ≤ L ∧ st.length < L + 3 := by
  by_cases h3 : st.length < 3
  · exact Or.inl h3
  · obtain ⟨L, hL⟩ := (decodeU24_isSome_iff st 0).mpr (by omega)
    rw [classify_of_decode st L hL] at h
    split at h
    · cases h
    · split at h
      · cases h
      · exact Or.inr ⟨L, hL, by omega, by omega⟩

theorem classify_short_length (st : List Byte) (h : classify st = .short) :
    st.length + 2 ≤ maxBuffSize := by
  rcases classify_short st h with h3 | ⟨L, hL, -, h2⟩
  · have : maxBuffSize = 16777219 := by decide
    omega
  · have := decodeU24_lt st 0 L hL
    have : maxBuffSize = 16777219 := by decide
    omega

theorem splitFunc_classify (st : List Byte) :
    splitFunc st false = some
      (match classify st with
       | .record L => ⟨L + 3, some (st.take (L + 3)), none⟩
       | .bad => ⟨0, none, some (.badFrameLength 0)⟩
       | .short => ⟨0, none, none⟩) := by
  by_cases h3 : st.length < 3
  · rw [splitFunc_short st h3, classify_short_of_length st h3]
  · obtain ⟨L, hL⟩ := (decodeU24_isSome_iff st 0).mpr (by omega)
    rw [splitFunc_long st L hL, classify_of_decode st L hL]
    by_cases h1 : L < 1
    · have : L = 0 := by omega
      subst this
      simp
    · rw [if_neg h1, if_neg h1]
      by_cases h2 : L + 3 ≤ st.length
      · rw [if_pos h2, if_pos h2]
      · rw [if_neg h2, if_neg h2]

theorem splitFunc_atEOF (st : List Byte) : splitFunc st true = some ⟨0, none, none⟩ := by
  simp [splitFunc]

theorem decodeU24_append (a b : List Byte) (L : Nat) (h : decodeU24 a 0 = some L) :
    decodeU24 (a ++ b) 0 = some L := by
  have h3 := (decodeU24_isSome_iff a 0).mp ⟨L, h⟩
  match a, h, h3 with
  | x :: y :: z :: rest, h, _ =>
    rw [decodeU24_cons3] at h
    simp only [List.cons_append, decodeU24_cons3]
    exact h

theorem classify_append_record (a b : List Byte) (L : Nat) (h : classify a = .record L) :
    classify (a ++ b) = .record L := by
  obtain ⟨hd, h1, h2⟩ := classify_record a L h
  rw [classify_of_decode (a ++ b) L (decodeU24_append a b L hd), if_neg (by omega),
    if_pos (by rw [List.length_append]; omega)]

theorem classify_append_bad (a b : List Byte) (h : classify a = .bad) :
    classify (a ++ b) = .bad := by
  have hd := classify_bad a h
  rw [classify_of_decode (a ++ b) 0 (decodeU24_append a b 0 hd), if_pos (by omega)]

/-! ## Theorems: reading from a clean reader -/

theorem Reader.clean_isClean (pieces : List (List Byte)) (h : ∀ c ∈ pieces, c ≠ []) :
    (Reader.clean pieces).IsClean := by
  refine ⟨rfl, ?_⟩
  intro p hp
  simp only [Reader.clean, List.mem_map] at hp
  obtain ⟨c, hc, rfl⟩ := hp
  exact ⟨rfl, h c hc⟩

theorem Reader.clean_bytes (pieces : List (List Byte)) :
    (Reader.clean pieces).bytes = pieces.flatten := by
  simp [Reader.clean, Reader.bytes, Function.comp_def]

theorem Reader.bytes_length_le_size (r : Reader) : r.bytes.length ≤ r.size := by
  obtain ⟨pending, final⟩ := r
  simp only [Reader.bytes, Reader.size]
  induction pending with
  | nil => simp
  | cons p ps ih =>
    simp only [List.map_cons, List.flatten_cons, List.length_append, List.sum_cons]
    omega

theorem Reader.IsClean.steady {r : Reader} (h : r.IsClean) : r.IsSteady := h.2

theorem Reader.failing_isSteady (pieces : List (List Byte)) (e : GoError)
    (h : ∀ c ∈ pieces, c ≠ []) : (Reader.failing pieces e).IsSteady := by
  intro p hp
  simp only [Reader.failing, List.mem_map] at hp
  obtain ⟨c, hc, rfl⟩ := hp
  exact ⟨rfl, h c hc⟩

theorem Reader.failing_bytes (pieces : List (List Byte)) (e : GoError) :
    (Reader.failing pieces e).bytes = pieces.flatten := by
  simp [Reader.failing, Reader.bytes, Function.comp_def]

theorem Reader.read_nil (r : Reader) (room : Nat) (hp : r.pending = []) :
    r.Read room = ([], some r.final, r) ∧ r.bytes = [] := by
  simp [Reader.Read, Reader.bytes, hp]

theorem Reader.read_cons (r : Reader) (room : Nat) (hc : r.IsSteady) (hp : r.pending ≠ [])
    (hroom : 0 < room) :
    ∃ bs r2, r.Read room = (bs, none, r2) ∧ bs ≠ [] ∧ bs.length ≤ room ∧
      bs ++ r2.bytes = r.bytes ∧ (r2.IsSteady ∧ r2.final = r.final) ∧ r2.size < r.size := by
  obtain ⟨pending, final⟩ := r
  match pending, hp with
  | (c, e) :: rest, _ =>
    have hce := hc (c, e) (List.mem_cons_self _ _)
    have he : e = none := hce.1
    have hne : c ≠ [] := hce.2
    have hlen : 0 < c.length := List.length_pos.mpr hne
    subst he
    by_cases hfit : c.length ≤ room
    · refine ⟨c, ⟨rest, final⟩, ?_, hne, hfit, ?_, ⟨?_, rfl⟩, ?_⟩
      · simp [Reader.Read, hfit]
      · simp [Reader.bytes]
      · intro p hp
        exact hc p (List.mem_cons_of_mem _ hp)
      · simp only [Reader.size, List.map_cons, List.sum_cons]
        omega
    · refine ⟨c.take room, ⟨(c.drop room, none) :: rest, final⟩, ?_, ?_, ?_, ?_, ⟨?_, rfl⟩, ?_⟩
      · simp [Reader.Read, hfit]
      · intro h
        have := congrArg List.length h
        simp only [List.length_take, List.length_nil] at this
        omega
      · simp only [List.length_take]
        omega
      · simp only [Reader.bytes, List.map_cons, List.flatten_cons]
        rw [← List.append_assoc, List.take_append_drop]
      · intro p hp
        rcases List.mem_cons.mp hp with rfl | hp
        · refine ⟨rfl, ?_⟩
          intro h
          have := congrArg List.length h
          simp only [List.length_drop, List.length_nil] at this
          omega
        · exact hc p (List.mem_cons_of_mem _ hp)
      · simp only [Reader.size, List.map_cons, List.sum_cons, List.length_drop]
        omega

/-! ## Theorems: one iteration of `Scan` on a clean reader -/

theorem Scanner.Inv.with_token {s : Scanner} (h : s.Inv) (t : Option (List Byte)) :
    ({ s with token := t } : Scanner).Inv :=
  ⟨h.err_none, h.window, h.bufLen_pos, h.bufLen_le, h.maxTok, h.steady⟩

theorem Scanner.setErr_of_none (s : Scanner) (e : GoError) (h : s.err = none) :
    s.setErr e = { s with err := some e } := by
  simp [Scanner.setErr, h]

theorem Scanner.readLoop_nil (k : Nat) (s : Scanner)
    (hp : s.r.pending = []) (he : s.err = none) :
    Scanner.readLoop k s = { s with err := some s.r.final } := by
  obtain ⟨hread, -⟩ := Reader.read_nil s.r (s.bufLen - s.stop) hp
  unfold Scanner.readLoop
  simp only [hread, List.append_nil]
  rw [Scanner.setErr_of_none _ _ he]

theorem Scanner.readLoop_cons (k : Nat) (s : Scanner) (hinv : s.Inv)
    (hroom : s.stop < s.bufLen) (hp : s.r.pending ≠ []) :
    (Scanner.readLoop k s).Inv ∧ (Scanner.readLoop k s).stream = s.stream ∧
      (Scanner.readLoop k s).r.size < s.r.size ∧
      (Scanner.readLoop k s).r.final = s.r.final := by
  obtain ⟨bs, r2, hread, hne, hlen, hbytes, ⟨hclean, hfinal⟩, hsize⟩ :=
    Reader.read_cons s.r (s.bufLen - s.stop) hinv.steady hp (by omega)
  have hpos : bs.length > 0 := List.length_pos.mpr hne
  unfold Scanner.readLoop
  simp only [hread, hpos, if_true]
  refine ⟨⟨hinv.err_none, ?_, hinv.bufLen_pos, hinv.bufLen_le, hinv.maxTok, hclean⟩, ?_, hsize,
    hfinal⟩
  · simp only [List.length_append]
    unfold Scanner.stop at hroom hlen
    omega
  · simp only [Scanner.stream, List.append_assoc, hbytes]

theorem Scanner.trySplit_record (s : Scanner) (L : Nat) (he : s.err = none)
    (h : classify s.data = .record L) :
    s.trySplit = .inl (.found { s with start := s.start + (L + 3),
                                       data := s.data.drop (L + 3),
                                       token := some (s.data.take (L + 3)) }) := by
  obtain ⟨-, -, hlen⟩ := classify_record s.data L h
  have hpos : s.data.length > 0 := by omega
  have hsplit := splitFunc_classify s.data
  rw [h] at hsplit
  simp only [Scanner.trySplit, hpos, he, decide_True, Bool.true_or, if_true,
    Option.isSome_none, hsplit]
  rw [if_neg (by omega)]

theorem Scanner.trySplit_bad (s : Scanner) (he : s.err = none) (h : classify s.data = .bad) :
    s.trySplit = .inl (.done { s with err := some (.badFrameLength 0) }) := by
  have hlen := (decodeU24_isSome_iff s.data 0).mp ⟨0, classify_bad s.data h⟩
  have hpos : s.data.length > 0 := by omega
  have hsplit := splitFunc_classify s.data
  rw [h] at hsplit
  simp only [Scanner.trySplit, hpos, he, decide_True, Bool.true_or, if_true,
    Option.isSome_none, hsplit]
  rw [Scanner.setErr_of_none _ _ he]

theorem Scanner.trySplit_short (s : Scanner) (he : s.err = none)
    (h : classify s.data = .short) :
    ∃ t, s.trySplit = .inr { s with token := t } := by
  obtain ⟨r, data, start, bufLen, mts, token, err⟩ := s
  simp only at he h
  subst he
  have hsplit := splitFunc_classify data
  rw [h] at hsplit
  by_cases hpos : data.length > 0
  · refine ⟨none, ?_⟩
    simp only [Scanner.trySplit, hpos, decide_True, Bool.true_or, if_true,
      Option.isSome_none, hsplit]
    simp
  · refine ⟨token, ?_⟩
    simp [Scanner.trySplit, hpos]

theorem Scanner.trySplit_atEOF (s : Scanner) (e : GoError) (he : s.err = some e) :
    s.trySplit = .inr { s with token := none } := by
  simp [Scanner.trySplit, he, splitFunc_atEOF]

theorem Scanner.readMore_err (s : Scanner) (e : GoError) (he : s.err = some e) :
    s.readMore = .inl (.done { s with start := 0, data := [] }) := by
  simp [Scanner.readMore, he]

theorem Scanner.readMore_short (s : Scanner) (hinv : s.Inv) (h : classify s.data = .short) :
    ∃ s1 : Scanner, s1.Inv ∧ s1.stop < s1.bufLen ∧ s1.r = s.r ∧ s1.data = s.data ∧
      s.readMore = .inr (Scanner.readLoop maxConsecutiveEmptyReads s1) := by
  have hshort := classify_short_length s.data h
  have hmax : maxBuffSize = 16777219 := by decide
  have hint : maxInt = 9223372036854775807 := by decide
  obtain ⟨he, hw, hpos, hle, hmt, hclean⟩ := hinv
  obtain ⟨r, data, start, bufLen, mts, token, err⟩ := s
  simp only at he hw hpos hle hmt hclean hshort
  subst he hmt
  simp only [Scanner.readMore, Scanner.stop, Option.isSome_none, Bool.false_eq_true, if_false]
  by_cases hshift : start > 0 ∧ (start + data.length = bufLen ∨ start > bufLen / 2)
  · refine ⟨⟨r, data, 0, bufLen, maxBuffSize, token, none⟩,
      ⟨rfl, by simp only; omega, hpos, hle, rfl, hclean⟩, ?_, rfl, rfl, ?_⟩
    · simp only [Scanner.stop]
      omega
    · rw [if_pos hshift]
      simp only [Nat.zero_add]
      rw [if_neg (by omega)]
  · by_cases hfull : start + data.length = bufLen
    · have hstart : start = 0 := by
        by_contra hne
        exact hshift ⟨by omega, Or.inl hfull⟩
      subst hstart
      have hgrow : min (if bufLen * 2 = 0 then startBufSize else bufLen * 2) maxBuffSize
          = min (bufLen * 2) maxBuffSize := by
        rw [if_neg (by omega)]
      refine ⟨⟨r, data, 0, min (bufLen * 2) maxBuffSize, maxBuffSize, token, none⟩,
        ⟨rfl, by simp only; omega, by simp only; omega, by simp only; omega, rfl, hclean⟩,
        ?_, rfl, rfl, ?_⟩
      · simp only [Scanner.stop]
        omega
      · rw [if_neg hshift]
        simp only []
        rw [if_pos hfull, if_neg (by rw [hint]; omega), hgrow]
    · refine ⟨⟨r, data, start, bufLen, maxBuffSize, token, none⟩,
        ⟨rfl, hw, hpos, hle, rfl, hclean⟩, ?_, rfl, rfl, ?_⟩
      · simp only [Scanner.stop]
        omega
      · rw [if_neg hshift]
        simp only []
        rw [if_neg hfull]

/-! ## Theorems: `Scan` on a clean reader -/

theorem Scanner.scanLoop_atEOF (fuel : Nat) (s : Scanner) (e : GoError)
    (he : s.err = some e) :
    ∃ s2 : Scanner, Scanner.scanLoop (fuel + 1) s = .done s2 ∧ s2.err = some e := by
  have h : Scanner.scanLoop (fuel + 1) s
      = .done { s with token := none, start := 0, data := [] } := by
    rw [Scanner.scanLoop, Scanner.trySplit_atEOF s e he]
    simp only
    rw [Scanner.readMore_err { s with token := none } e he]
  exact ⟨_, h, he⟩

theorem Scanner.scanLoop_clean (fuel : Nat) :
    ∀ s : Scanner, s.Inv → s.r.size + 2 ≤ fuel →
      ScanPost s.stream s.r.final (Scanner.scanLoop fuel s) := by
  induction fuel with
  | zero => intro s _ h; omega
  | succ fuel ih =>
    intro s hinv hfuel
    cases hcd : classify s.data with
    | record L =>
      obtain ⟨-, -, hlen⟩ := classify_record s.data L hcd
      have hcs : classify s.stream = .record L := classify_append_record _ _ _ hcd
      simp only [ScanPost, hcs]
      have h : Scanner.scanLoop (fuel + 1) s
          = .found { s with start := s.start + (L + 3), data := s.data.drop (L + 3),
                            token := some (s.data.take (L + 3)) } := by
        rw [Scanner.scanLoop, Scanner.trySplit_record s L hinv.err_none hcd]
      refine ⟨_, h, ?_, ?_, ?_, rfl⟩
      · refine ⟨hinv.err_none, ?_, hinv.bufLen_pos, hinv.bufLen_le, hinv.maxTok, hinv.steady⟩
        have := hinv.window
        simp only [List.length_drop]
        omega
      · simp only [Scanner.stream, List.take_append_of_le_length hlen]
      · simp only [Scanner.stream, List.drop_append_of_le_length hlen]
    | bad =>
      have hcs : classify s.stream = .bad := classify_append_bad _ _ hcd
      simp only [ScanPost, hcs]
      have h : Scanner.scanLoop (fuel + 1) s
          = .done { s with err := some (.badFrameLength 0) } := by
        rw [Scanner.scanLoop, Scanner.trySplit_bad s hinv.err_none hcd]
      exact ⟨_, h, rfl⟩
    | short =>
      obtain ⟨t, ht⟩ := Scanner.trySplit_short s hinv.err_none hcd
      obtain ⟨s1, hinv1, hroom, hr1, hd1, hmore⟩ :=
        Scanner.readMore_short { s with token := t } (hinv.with_token t) hcd
      have hstep : Scanner.scanLoop (fuel + 1) s
          = Scanner.scanLoop fuel (Scanner.readLoop maxConsecutiveEmptyReads s1) := by
        rw [Scanner.scanLoop, ht]
        simp only
        rw [hmore]
      rw [hstep]
      by_cases hp : s.r.pending = []
      · have hp1 : s1.r.pending = [] := by rw [hr1]; exact hp
        rw [Scanner.readLoop_nil _ s1 hp1 hinv1.err_none]
        have hb : s.r.bytes = [] := (Reader.read_nil s.r 0 hp).2
        have hcs : classify s.stream = .short := by
          simp only [Scanner.stream, hb, List.append_nil, hcd]
        simp only [ScanPost, hcs]
        obtain ⟨f, rfl⟩ : ∃ f, fuel = f + 1 := ⟨fuel - 1, by omega⟩
        have hfin : s1.r.final = s.r.final := by rw [hr1]
        rw [← hfin]
        exact Scanner.scanLoop_atEOF f _ _ rfl
      · have hp1 : s1.r.pending ≠ [] := by rw [hr1]; exact hp
        obtain ⟨hinv2, hst2, hsz2, hfin2⟩ :=
          Scanner.readLoop_cons maxConsecutiveEmptyReads s1 hinv1 hroom hp1
        have hst : s1.stream = s.stream := by
          simp only [Scanner.stream, hr1, hd1]
        have hfin : s1.r.final = s.r.final := by rw [hr1]
        rw [← hst, ← hst2, ← hfin, ← hfin2]
        apply ih _ hinv2
        rw [hr1] at hsz2
        simp only at hsz2
        omega

theorem Scanner.Scan_clean (s : Scanner) (hinv : s.Inv) :
    ScanPost s.stream s.r.final s.Scan :=
  Scanner.scanLoop_clean _ s hinv (Nat.le_refl _)

/-! ## Theorems: the dispatch loop on a clean reader -/

theorem afterScan_EOF (s : Scanner) (h : s.err = some .EOF) :
    afterScan s = .returned none := by
  simp [afterScan, Scanner.Err, h]

theorem afterScan_bad (s : Scanner) (n : Nat) (h : s.err = some (.badFrameLength n)) :
    afterScan s = .returned (some (.badFrameLength n)) := by
  simp [afterScan, Scanner.Err, h, isClosedConn]

theorem afterScan_err (s : Scanner) (e : GoError) (h : s.err = some e) :
    afterScan s = endOfStream e := by
  by_cases he : e = .EOF
  · subst he
    simp [afterScan, Scanner.Err, h, endOfStream]
  · simp [afterScan, Scanner.Err, h, endOfStream, he]

theorem endOfStream_EOF : endOfStream .EOF = .returned none := rfl

theorem handleLoop_short (ctx : Context) (fn : FrameHandler) (fuel : Nat) (s : Scanner)
    (tr : List Invocation) (hinv : s.Inv) (h : classify s.stream = .short) :
    handleLoop ctx fn (fuel + 1) s tr = (tr, endOfStream s.r.final) := by
  have hpost := Scanner.Scan_clean s hinv
  simp only [ScanPost, h] at hpost
  obtain ⟨s2, hscan, herr⟩ := hpost
  rw [handleLoop, hscan]
  simp only [afterScan_err s2 _ herr]

theorem handleLoop_bad (ctx : Context) (fn : FrameHandler) (fuel : Nat) (s : Scanner)
    (tr : List Invocation) (hinv : s.Inv) (h : classify s.stream = .bad) :
    handleLoop ctx fn (fuel + 1) s tr = (tr, .returned (some (.badFrameLength 0))) := by
  have hpost := Scanner.Scan_clean s hinv
  simp only [ScanPost, h] at hpost
  obtain ⟨s2, hscan, herr⟩ := hpost
  rw [handleLoop, hscan]
  simp only [afterScan_bad s2 0 herr]

theorem handleLoop_record (ctx : Context) (fn : FrameHandler) (fuel : Nat) (s : Scanner)
    (tr : List Invocation) (L : Nat) (hinv : s.Inv) (h : classify s.stream = .record L) :
    ∃ s2 : Scanner, (s2.Inv ∧ s2.r.final = s.r.final) ∧ s2.stream = s.stream.drop (L + 3) ∧
      handleLoop ctx fn (fuel + 1) s tr =
        match dispatch ctx fn tr (some (s.stream.take (L + 3))) with
        | (tr, some res) => (tr, res)
        | (tr, none) => handleLoop ctx fn fuel s2 tr := by
  have hpost := Scanner.Scan_clean s hinv
  simp only [ScanPost, h] at hpost
  obtain ⟨s2, hscan, hinv2, htok, hst, hfin⟩ := hpost
  refine ⟨s2, ⟨hinv2, hfin⟩, hst, ?_⟩
  rw [handleLoop, hscan]
  simp only [htok]

theorem handleLoop_stream (ctx : Context) (fn : FrameHandler) (n : Nat) :
    ∀ (f1 f2 : Nat) (s1 s2 : Scanner) (tr : List Invocation), s1.Inv → s2.Inv →
      s1.r.final = s2.r.final →
      s1.stream = s2.stream → s1.stream.length ≤ n → s1.stream.length < f1 →
      s1.stream.length < f2 →
      handleLoop ctx fn f1 s1 tr = handleLoop ctx fn f2 s2 tr := by
  induction n with
  | zero =>
    intro f1 f2 s1 s2 tr h1 h2 hfin heq hn hf1 hf2
    obtain ⟨f1, rfl⟩ : ∃ f, f1 = f + 1 := ⟨f1 - 1, by omega⟩
    obtain ⟨f2, rfl⟩ : ∃ f, f2 = f + 1 := ⟨f2 - 1, by omega⟩
    have hc : classify s1.stream = .short := classify_short_of_length _ (by omega)
    rw [handleLoop_short ctx fn f1 s1 tr h1 hc,
      handleLoop_short ctx fn f2 s2 tr h2 (heq ▸ hc), hfin]
  | succ n ih =>
    intro f1 f2 s1 s2 tr h1 h2 hfin heq hn hf1 hf2
    obtain ⟨f1, rfl⟩ : ∃ f, f1 = f + 1 := ⟨f1 - 1, by omega⟩
    obtain ⟨f2, rfl⟩ : ∃ f, f2 = f + 1 := ⟨f2 - 1, by omega⟩
    cases hc : classify s1.stream with
    | short =>
      rw [handleLoop_short ctx fn f1 s1 tr h1 hc,
        handleLoop_short ctx fn f2 s2 tr h2 (heq ▸ hc), hfin]
    | bad =>
      rw [handleLoop_bad ctx fn f1 s1 tr h1 hc,
        handleLoop_bad ctx fn f2 s2 tr h2 (heq ▸ hc)]
    | record L =>
      obtain ⟨-, hL1, hL2⟩ := classify_record _ L hc
      obtain ⟨t1, ⟨hi1, hfin1⟩, hst1, hr1⟩ := handleLoop_record ctx fn f1 s1 tr L h1 hc
      obtain ⟨t2, ⟨hi2, hfin2⟩, hst2, hr2⟩ :=
        handleLoop_record ctx fn f2 s2 tr L h2 (heq ▸ hc)
      rw [hr1, hr2, ← heq]
      have hlen : t1.stream.length = s1.stream.length - (L + 3) := by
        rw [hst1, List.length_drop]
      have hrec : ∀ tr2, handleLoop ctx fn f1 t1 tr2 = handleLoop ctx fn f2 t2 tr2 := by
        intro tr2
        apply ih f1 f2 t1 t2 tr2 hi1 hi2
        · rw [hfin1, hfin2, hfin]
        · rw [hst1, hst2, heq]
        · omega
        · omega
        · omega
      cases hd : dispatch ctx fn tr (some (List.take (L + 3) s1.stream)) with
      | mk tr2 res =>
        cases res with
        | some r => rfl
        | none => exact hrec tr2

theorem newScanner_inv (r : Reader) (h : r.IsSteady) : (newScanner r).Inv :=
  ⟨rfl, by simp [newScanner, defaultBuffSize], by simp [newScanner, defaultBuffSize],
    by simp [newScanner, defaultBuffSize, maxBuffSize], rfl, h⟩

theorem newScanner_stream (r : Reader) : (newScanner r).stream = r.bytes := by
  simp [newScanner, Scanner.stream]

theorem Handle_stream (ctx : Context) (fn : FrameHandler) (r1 r2 : Reader)
    (h1 : r1.IsSteady) (h2 : r2.IsSteady) (hfin : r1.final = r2.final)
    (heq : r1.bytes = r2.bytes) :
    Handle r1 ctx fn = Handle r2 ctx fn := by
  unfold Handle
  apply handleLoop_stream ctx fn r1.bytes.length _ _ _ _ _ (newScanner_inv r1 h1)
    (newScanner_inv r2 h2) hfin
  · rw [newScanner_stream, newScanner_stream, heq]
  · rw [newScanner_stream]
  · rw [newScanner_stream]
    have := Reader.bytes_length_le_size r1
    omega
  · rw [newScanner_stream, heq]
    have := Reader.bytes_length_le_size r2
    omega

/-! ## Theorems: records on the wire -/

theorem wire_length (record : List Byte) : (wire record).length = record.length + 3 := by
  simp only [wire, List.length_append, encodeU24_length]
  omega

theorem classify_wire (record rest : List Byte) (h1 : 1 ≤ record.length)
    (h2 : record.length ≤ 16777215) :
    classify (wire record ++ rest) = .record record.length := by
  have hd : decodeU24 (wire record ++ rest) 0 = some record.length := by
    rw [wire, List.append_assoc]
    exact decodeU24_encodeU24 record.length h2 _
  rw [classify_of_decode _ _ hd, if_neg (by omega),
    if_pos (by rw [List.length_append, wire_length]; omega)]

theorem take_wire (record rest : List Byte) :
    (wire record ++ rest).take (record.length + 3) = wire record := by
  rw [List.take_append_of_le_length (by rw [wire_length])]
  exact List.take_of_length_le (by rw [wire_length])

theorem drop_wire (record rest : List Byte) :
    (wire record ++ rest).drop (record.length + 3) = rest :=
  List.drop_left' (wire_length record)

theorem recordOf_wire (record : List Byte) : recordOf (wire record) = some record := by
  rw [recordOf, if_pos (by rw [wire_length]; omega)]
  exact congrArg some (List.drop_left' (encodeU24_length _))

theorem asHeader_ok (record : List Byte) (h : 6 ≤ record.length) :
    ∃ hd, asHeader record = .ok hd := by
  match record, h with
  | b0 :: b1 :: b2 :: b3 :: b4 :: b5 :: rest, _ => exact ⟨_, rfl⟩

theorem asHeader_take (record : List Byte) : asHeader (record.take 6) = asHeader record := by
  match record with
  | [] => rfl
  | [_] => rfl
  | [_, _] => rfl
  | [_, _, _] => rfl
  | [_, _, _, _] => rfl
  | [_, _, _, _, _] => rfl
  | b0 :: b1 :: b2 :: b3 :: b4 :: b5 :: rest => rfl

theorem dispatch_cancelled (ctx : Context) (fn : FrameHandler) (tr : List Invocation)
    (token : Option (List Byte)) (e : GoError) (hc : ctx tr.length = some e) :
    dispatch ctx fn tr token = (tr, some (.returned (some e))) := by
  simp only [dispatch, hc]

theorem dispatch_wire_error (ctx : Context) (fn : FrameHandler) (tr : List Invocation)
    (record : List Byte) (hd : Header) (err : GoError) (h : asHeader record = .ok hd)
    (hc : ctx tr.length = none) (hf : fn tr hd record = some err) :
    dispatch ctx fn tr (some (wire record))
      = (tr ++ [(hd, record)], some (.returned (some err))) := by
  simp only [dispatch, Option.some_bind, recordOf_wire, h, hc, hf]

theorem dispatch_wire_nil (ctx : Context) (fn : FrameHandler) (tr : List Invocation)
    (record : List Byte) (hd : Header) (h : asHeader record = .ok hd)
    (hc : ctx tr.length = none) (hf : fn tr hd record = none) :
    dispatch ctx fn tr (some (wire record)) = (tr ++ [(hd, record)], none) := by
  simp only [dispatch, Option.some_bind, recordOf_wire, h, hc, hf]

/-! ## Theorems: a sequence of records through the dispatch loop -/

theorem wireAll_cons (record : List Byte) (records : List (List Byte)) :
    wireAll (record :: records) = wire record ++ wireAll records := by
  simp [wireAll]

theorem handleLoop_records (ctx : Context) (fn : FrameHandler) :
    ∀ (records : List (List Byte)) (fuel : Nat) (s : Scanner) (tr : List Invocation)
      (tail : List Byte), s.Inv → s.stream = wireAll records ++ tail →
      s.stream.length < fuel → (∀ record ∈ records, ValidRecord record) →
      (∃ (s2 : Scanner) (fuel2 : Nat) (invs : List Invocation),
        handleLoop ctx fn fuel s tr = handleLoop ctx fn fuel2 s2 (tr ++ invs) ∧
        Delivers invs records ∧ (s2.Inv ∧ s2.r.final = s.r.final) ∧ s2.stream = tail ∧
        tail.length < fuel2) ∨
      (∃ (invs : List Invocation) (e : GoError) (k : Nat),
        handleLoop ctx fn fuel s tr = (tr ++ invs, .returned (some e)) ∧
        k ≤ records.length ∧ Delivers invs (records.take k) ∧
        ((∃ j, ctx j = some e) ∨ (∃ t h d, fn t h d = some e))) := by
  intro records
  induction records with
  | nil =>
    intro fuel s tr tail hinv hst hfuel _
    refine Or.inl ⟨s, fuel, [], by rw [List.append_nil], List.Forall₂.nil, ⟨hinv, rfl⟩, ?_, ?_⟩
    · simpa [wireAll] using hst
    · have := congrArg List.length hst
      simp only [wireAll, List.map_nil, List.flatten_nil, List.nil_append] at this
      omega
  | cons record rest ih =>
    intro fuel s tr tail hinv hst hfuel hvalid
    obtain ⟨hv6, hvmax⟩ := hvalid record (List.mem_cons_self _ _)
    have hv6 : 6 ≤ record.length := hv6
    have hst2 : s.stream = wire record ++ (wireAll rest ++ tail) := by
      rw [hst, wireAll_cons, List.append_assoc]
    have hc : classify s.stream = .record record.length := by
      rw [hst2]
      exact classify_wire _ _ (by omega) hvmax
    obtain ⟨f, rfl⟩ : ∃ f, fuel = f + 1 := ⟨fuel - 1, by omega⟩
    obtain ⟨s2, ⟨hinv2, hfin2⟩, hs2, hstep⟩ :=
      handleLoop_record ctx fn f s tr record.length hinv hc
    rw [hst2, take_wire] at hstep
    rw [hst2, drop_wire] at hs2
    obtain ⟨hd, hhd⟩ := asHeader_ok record hv6
    have hlen2 : s2.stream.length < f := by
      have := congrArg List.length hst2
      rw [List.length_append, wire_length] at this
      rw [hs2]
      omega
    cases hctx : ctx tr.length with
    | some e =>
      rw [dispatch_cancelled ctx fn tr _ e hctx] at hstep
      refine Or.inr ⟨[], e, 0, ?_, Nat.zero_le _, ?_, Or.inl ⟨_, hctx⟩⟩
      · rw [hstep, List.append_nil]
      · rw [List.take_zero]
        exact List.Forall₂.nil
    | none =>
      cases hfn : fn tr hd record with
      | some err =>
        rw [dispatch_wire_error ctx fn tr record hd err hhd hctx hfn] at hstep
        refine Or.inr ⟨[(hd, record)], err, 1, hstep, ?_, ?_, Or.inr ⟨_, _, _, hfn⟩⟩
        · simp
        · simp only [List.take_succ_cons, List.take_zero]
          exact List.Forall₂.cons ⟨hhd, rfl⟩ List.Forall₂.nil
      | none =>
        rw [dispatch_wire_nil ctx fn tr record hd hhd hctx hfn] at hstep
        have hstep2 : handleLoop ctx fn (f + 1) s tr
            = handleLoop ctx fn f s2 (tr ++ [(hd, record)]) := hstep
        rcases ih f s2 (tr ++ [(hd, record)]) tail hinv2 hs2 hlen2
          (fun r hr => hvalid r (List.mem_cons_of_mem _ hr)) with
          ⟨s3, fuel3, invs, heq, hdel, ⟨hinv3, hfin3⟩, hs3, hf3⟩ |
          ⟨invs, e, k, heq, hk, hdel, hwhy⟩
        · refine Or.inl ⟨s3, fuel3, (hd, record) :: invs, ?_, ?_, ⟨hinv3, hfin3.trans hfin2⟩,
            hs3, hf3⟩
          · rw [hstep2, heq, List.append_assoc, List.singleton_append]
          · exact List.Forall₂.cons ⟨hhd, rfl⟩ hdel
        · refine Or.inr ⟨(hd, record) :: invs, e, k + 1, ?_, ?_, ?_, hwhy⟩
          · rw [hstep2, heq, List.append_assoc, List.singleton_append]
          · simp only [List.length_cons]
            omega
          · rw [List.take_succ_cons]
            exact List.Forall₂.cons ⟨hhd, rfl⟩ hdel

theorem dispatch_cases (ctx : Context) (fn : FrameHandler) (tr : List Invocation)
    (tok : List Byte) (h : 3 ≤ tok.length) :
    (∃ tr2, dispatch ctx fn tr (some tok) = (tr2, none)) ∨
    (∃ tr2 e, dispatch ctx fn tr (some tok) = (tr2, some (.returned (some e)))) := by
  have hrec : (some tok).bind recordOf = some (tok.drop 3) := by
    simp only [Option.some_bind, recordOf, if_pos h]
  cases hc : ctx tr.length with
  | some e => exact Or.inr ⟨tr, e, by simp only [dispatch, hc]⟩
  | none =>
    cases ha : asHeader (tok.drop 3) with
    | error err => exact Or.inr ⟨tr, err, by simp only [dispatch, hc, hrec, ha]⟩
    | ok hd =>
      cases hf : fn tr hd (tok.drop 3) with
      | some err =>
        exact Or.inr ⟨tr ++ [(hd, tok.drop 3)], err, by simp only [dispatch, hc, hrec, ha, hf]⟩
      | none => exact Or.inl ⟨tr ++ [(hd, tok.drop 3)], by simp only [dispatch, hc, hrec, ha, hf]⟩

theorem handleLoop_returned (ctx : Context) (fn : FrameHandler) (n : Nat) :
    ∀ (f : Nat) (s : Scanner) (tr : List Invocation), s.Inv → s.r.final = .EOF →
      s.stream.length ≤ n →
      s.stream.length < f → ∃ invs err, handleLoop ctx fn f s tr = (invs, .returned err) := by
  induction n with
  | zero =>
    intro f s tr hinv hfin hn hf
    obtain ⟨f, rfl⟩ : ∃ g, f = g + 1 := ⟨f - 1, by omega⟩
    have h := handleLoop_short ctx fn f s tr hinv (classify_short_of_length _ (by omega))
    rw [hfin, endOfStream_EOF] at h
    exact ⟨_, _, h⟩
  | succ n ih =>
    intro f s tr hinv hfin hn hf
    obtain ⟨f, rfl⟩ : ∃ g, f = g + 1 := ⟨f - 1, by omega⟩
    cases hc : classify s.stream with
    | short =>
      have h := handleLoop_short ctx fn f s tr hinv hc
      rw [hfin, endOfStream_EOF] at h
      exact ⟨_, _, h⟩
    | bad => exact ⟨_, _, handleLoop_bad ctx fn f s tr hinv hc⟩
    | record L =>
      obtain ⟨-, hL1, hL2⟩ := classify_record _ L hc
      obtain ⟨s2, ⟨hinv2, hfin2⟩, hs2, hstep⟩ := handleLoop_record ctx fn f s tr L hinv hc
      have hlen : s2.stream.length = s.stream.length - (L + 3) := by
        rw [hs2, List.length_drop]
      have htok : 3 ≤ (s.stream.take (L + 3)).length := by
        rw [List.length_take]
        omega
      rcases dispatch_cases ctx fn tr _ htok with ⟨tr2, hd⟩ | ⟨tr2, e, hd⟩
      · rw [hd] at hstep
        rw [hstep]
        exact ih f s2 tr2 hinv2 (hfin2.trans hfin) (by omega) (by omega)
      · rw [hd] at hstep
        exact ⟨_, _, hstep⟩

/-! ## Theorems: handler errors, for any reader -/

theorem AllNil.snoc {fn : FrameHandler} {tr : List Invocation} (h : AllNil fn tr)
    (hd : Header) (d : List Byte) (hf : fn tr hd d = none) : AllNil fn (tr ++ [(hd, d)]) := by
  intro j inv hj
  by_cases hlt : j < tr.length
  · rw [List.getElem?_append_left hlt] at hj
    rw [List.take_append_of_le_length (Nat.le_of_lt hlt)]
    exact h j inv hj
  · by_cases heq : j = tr.length
    · subst heq
      rw [List.getElem?_append_right (Nat.le_refl _)] at hj
      simp only [Nat.sub_self, List.getElem?_cons_zero, Option.some.injEq] at hj
      subst hj
      rw [List.take_left']
      · exact hf
      · rfl
    · have hlen : (tr ++ [(hd, d)]).length ≤ j := by
        simp only [List.length_append, List.length_singleton]
        omega
      rw [List.getElem?_eq_none hlen] at hj
      cases hj

theorem dispatch_trace (ctx : Context) (fn : FrameHandler) (tr : List Invocation)
    (token : Option (List Byte)) (h : AllNil fn tr) :
    (∃ tr2, dispatch ctx fn tr token = (tr2, none) ∧ AllNil fn tr2) ∨
    (∃ res, dispatch ctx fn tr token = (tr, some res)) ∨
    (∃ hd d e, dispatch ctx fn tr token = (tr ++ [(hd, d)], some (.returned (some e))) ∧
      fn tr hd d = some e) := by
  cases hc : ctx tr.length with
  | some e => exact Or.inr (Or.inl ⟨.returned (some e), by simp only [dispatch, hc]⟩)
  | none =>
    cases hr : token.bind recordOf with
    | none => exact Or.inr (Or.inl ⟨.panicked, by simp only [dispatch, hc, hr]⟩)
    | some d =>
      cases ha : asHeader d with
      | error err =>
        exact Or.inr (Or.inl ⟨.returned (some err), by simp only [dispatch, hc, hr, ha]⟩)
      | ok hd =>
        cases hf : fn tr hd d with
        | some err =>
          exact Or.inr (Or.inr ⟨hd, d, err, by simp only [dispatch, hc, hr, ha, hf], hf⟩)
        | none =>
          exact Or.inl ⟨tr ++ [(hd, d)], by simp only [dispatch, hc, hr, ha, hf],
            h.snoc hd d hf⟩

theorem handleLoop_trace (ctx : Context) (fn : FrameHandler) (fuel : Nat) :
    ∀ (s : Scanner) (tr : List Invocation), AllNil fn tr →
      TracePost fn (handleLoop ctx fn fuel s tr) := by
  induction fuel with
  | zero => intro s tr h; exact Or.inl h
  | succ fuel ih =>
    intro s tr h
    rw [handleLoop]
    cases hs : s.Scan with
    | outOfFuel => exact Or.inl h
    | panicked => exact Or.inl h
    | done s2 => exact Or.inl h
    | found s2 =>
      simp only
      rcases dispatch_trace ctx fn tr s2.token h with
        ⟨tr2, hd, h2⟩ | ⟨res, hd⟩ | ⟨hd, d, e, hdis, hf⟩
      · rw [hd]
        exact ih s2 tr2 h2
      · rw [hd]
        exact Or.inl h
      · rw [hdis]
        exact Or.inr ⟨tr, hd, d, e, rfl, h, hf, rfl⟩

theorem AllNil.nil (fn : FrameHandler) : AllNil fn [] := by
  intro j inv hj
  simp at hj

theorem TracePost.error_last {fn : FrameHandler} {out : List Invocation × Result}
    (h : TracePost fn out) (i : Nat) (inv : Invocation) (e : GoError)
    (hi : out.1[i]? = some inv) (he : fn (out.1.take i) inv.1 inv.2 = some e) :
    out.2 = .returned (some e) ∧ out.1.length = i + 1 := by
  rcases h with h | ⟨pre, hd, d, e2, hout, hpre, hf, hres⟩
  · rw [h i inv hi] at he
    cases he
  · rw [hout] at hi he
    by_cases hlt : i < pre.length
    · rw [List.getElem?_append_left hlt] at hi
      rw [List.take_append_of_le_length (Nat.le_of_lt hlt), hpre i inv hi] at he
      cases he
    · have hile : i < (pre ++ [(hd, d)]).length := by
        by_contra hge
        rw [List.getElem?_eq_none (by omega)] at hi
        cases hi
      simp only [List.length_append, List.length_singleton] at hile
      have heq : i = pre.length := by omega
      subst heq
      rw [List.getElem?_append_right (Nat.le_refl _)] at hi
      simp only [Nat.sub_self, List.getElem?_cons_zero, Option.some.injEq] at hi
      subst hi
      rw [List.take_left' rfl, hf] at he
      cases he
      refine ⟨hres, ?_⟩
      rw [hout]
      simp

/-! ## Theorems: `Handle` comes to an end, for any reader -/

theorem Reader.read_progress (r : Reader) (room : Nat) (hroom : 0 < room) :
    (r.Read room).1.length ≤ room ∧
    (r.Read room).2.2.size + (r.Read room).1.length ≤ r.size ∧
    ((r.Read room).2.1.isSome ∨ (r.Read room).2.2.size < r.size) := by
  obtain ⟨pending, final⟩ := r
  match pending with
  | [] => simp [Reader.Read]
  | (c, e) :: rest =>
    by_cases hfit : c.length ≤ room
    · simp only [Reader.Read, hfit, if_true, Reader.size, List.map_cons, List.sum_cons]
      refine ⟨trivial, by omega, Or.inr (by omega)⟩
    · simp only [Reader.Read, hfit, if_false, Reader.size, List.map_cons, List.sum_cons,
        List.length_take, List.length_drop]
      refine ⟨by omega, by omega, Or.inr (by omega)⟩

theorem Scanner.setErr_isSome (s : Scanner) (e : GoError) : (s.setErr e).err.isSome = true := by
  unfold Scanner.setErr
  split
  · rfl
  · rename_i h
    cases he : s.err with
    | none => exact absurd (Or.inl he) h
    | some _ => simp [he]

theorem Scanner.setErr_fields (s : Scanner) (e : GoError) :
    (s.setErr e).r = s.r ∧ (s.setErr e).data = s.data ∧ (s.setErr e).start = s.start ∧
      (s.setErr e).bufLen = s.bufLen := by
  unfold Scanner.setErr
  split <;> exact ⟨rfl, rfl, rfl, rfl⟩

theorem Scanner.readLoop_progress (k : Nat) :
    ∀ s : Scanner, s.stop < s.bufLen →
      (Scanner.readLoop k s).start + (Scanner.readLoop k s).data.length
        ≤ (Scanner.readLoop k s).bufLen ∧
      (Scanner.readLoop k s).data.length + (Scanner.readLoop k s).r.size
        ≤ s.data.length + s.r.size ∧
      ((Scanner.readLoop k s).err.isSome = true ∨ (Scanner.readLoop k s).r.size < s.r.size) := by
  induction k with
  | zero =>
    intro s hroom
    obtain ⟨h1, h2, h3⟩ := Reader.read_progress s.r (s.bufLen - s.stop) (by omega)
    unfold Scanner.stop at hroom h1 h2 h3
    unfold Scanner.readLoop
    simp only [Scanner.stop]
    generalize s.r.Read (s.bufLen - (s.start + s.data.length)) = res at h1 h2 h3
    obtain ⟨bs, err, r2⟩ := res
    simp only at h1 h2 h3 ⊢
    cases err with
    | some e =>
      simp only
      obtain ⟨f1, f2, f3, f4⟩ := Scanner.setErr_fields
        { s with r := r2, data := s.data ++ bs } e
      rw [f1, f2, f3, f4]
      simp only [List.length_append]
      exact ⟨by omega, by omega, Or.inl (Scanner.setErr_isSome _ _)⟩
    | none =>
      simp only
      have h3 : r2.size < s.r.size := by
        rcases h3 with h | h
        · cases h
        · exact h
      by_cases hpos : bs.length > 0
      · rw [if_pos hpos]
        simp only [List.length_append]
        exact ⟨by omega, by omega, Or.inr h3⟩
      · rw [if_neg hpos]
        obtain ⟨f1, f2, f3, f4⟩ := Scanner.setErr_fields
          { s with r := r2, data := s.data ++ bs } .ErrNoProgress
        rw [f1, f2, f3, f4]
        simp only [List.length_append]
        exact ⟨by omega, by omega, Or.inl (Scanner.setErr_isSome _ _)⟩
  | succ k ih =>
    intro s hroom
    obtain ⟨h1, h2, h3⟩ := Reader.read_progress s.r (s.bufLen - s.stop) (by omega)
    unfold Scanner.stop at hroom h1 h2 h3
    unfold Scanner.readLoop
    simp only [Scanner.stop]
    generalize s.r.Read (s.bufLen - (s.start + s.data.length)) = res at h1 h2 h3
    obtain ⟨bs, err, r2⟩ := res
    simp only at h1 h2 h3 ⊢
    cases err with
    | some e =>
      simp only
      obtain ⟨f1, f2, f3, f4⟩ := Scanner.setErr_fields
        { s with r := r2, data := s.data ++ bs } e
      rw [f1, f2, f3, f4]
      simp only [List.length_append]
      exact ⟨by omega, by omega, Or.inl (Scanner.setErr_isSome _ _)⟩
    | none =>
      simp only
      have h3 : r2.size < s.r.size := by
        rcases h3 with h | h
        · cases h
        · exact h
      by_cases hpos : bs.length > 0
      · rw [if_pos hpos]
        simp only [List.length_append]
        exact ⟨by omega, by omega, Or.inr h3⟩
      · rw [if_neg hpos]
        have hroom2 : ({ s with r := r2, data := s.data ++ bs } : Scanner).stop
            < ({ s with r := r2, data := s.data ++ bs } : Scanner).bufLen := by
          simp only [Scanner.stop, List.length_append]
          omega
        obtain ⟨g1, g2, g3⟩ := ih { s with r := r2, data := s.data ++ bs } hroom2
        simp only [List.length_append] at g2 g3
        refine ⟨g1, by omega, ?_⟩
        rcases g3 with g | g
        · exact Or.inl g
        · exact Or.inr (by omega)

theorem Scanner.trySplit_cases (s : Scanner) (hw : s.start + s.data.length ≤ s.bufLen) :
    (∃ s2, s.trySplit = .inl (.done s2)) ∨
    (∃ s2 tok, s.trySplit = .inl (.found s2) ∧ s2.start + s2.data.length ≤ s2.bufLen ∧
      s2.data.length + s2.r.size < s.data.length + s.r.size ∧
      s2.token = some tok ∧ 3 ≤ tok.length) ∨
    (∃ t, s.trySplit = .inr { s with token := t }) := by
  obtain he | ⟨e, he⟩ : s.err = none ∨ ∃ e, s.err = some e := by
    cases s.err
    · exact Or.inl rfl
    · exact Or.inr ⟨_, rfl⟩
  · cases hc : classify s.data with
    | record L =>
      obtain ⟨-, hL1, hL2⟩ := classify_record s.data L hc
      refine Or.inr (Or.inl ⟨_, s.data.take (L + 3), Scanner.trySplit_record s L he hc,
        ?_, ?_, rfl, ?_⟩)
      · simp only [List.length_drop]
        omega
      · simp only [List.length_drop]
        omega
      · rw [List.length_take]
        omega
    | bad => exact Or.inl ⟨_, Scanner.trySplit_bad s he hc⟩
    | short => exact Or.inr (Or.inr (Scanner.trySplit_short s he hc))
  · exact Or.inr (Or.inr ⟨none, Scanner.trySplit_atEOF s e he⟩)

theorem Scanner.readMore_cases (s : Scanner) (he : s.err = none)
    (hw : s.start + s.data.length ≤ s.bufLen) :
    (∃ s2, s.readMore = .inl (.done s2)) ∨
    (∃ s1 : Scanner, s.readMore = .inr (Scanner.readLoop maxConsecutiveEmptyReads s1) ∧
      s1.stop < s1.bufLen ∧ s1.r = s.r ∧ s1.data = s.data) := by
  obtain ⟨r, data, start, bufLen, mts, token, err⟩ := s
  simp only at he hw
  subst he
  have hsb : startBufSize = 4096 := rfl
  simp only [Scanner.readMore, Scanner.stop, Option.isSome_none, Bool.false_eq_true, if_false]
  by_cases hshift : start > 0 ∧ (start + data.length = bufLen ∨ start > bufLen / 2)
  · rw [if_pos hshift]
    simp only [Nat.zero_add]
    rw [if_neg (by omega)]
    exact Or.inr ⟨⟨r, data, 0, bufLen, mts, token, none⟩, rfl,
      by simp only [Scanner.stop]; omega, rfl, rfl⟩
  · rw [if_neg hshift]
    simp only []
    by_cases hfull : start + data.length = bufLen
    · rw [if_pos hfull]
      by_cases hmax : bufLen ≥ mts ∨ bufLen > maxInt / 2
      · rw [if_pos hmax]
        exact Or.inl ⟨_, rfl⟩
      · rw [if_neg hmax]
        refine Or.inr ⟨_, rfl, ?_, rfl, rfl⟩
        simp only [Scanner.stop, Nat.zero_add]
        have hlt : bufLen < mts := by omega
        split <;> omega
    · rw [if_neg hfull]
      exact Or.inr ⟨⟨r, data, start, bufLen, mts, token, none⟩, rfl,
        by simp only [Scanner.stop]; omega, rfl, rfl⟩

theorem Scanner.scanLoop_total (fuel : Nat) :
    ∀ s : Scanner, s.start + s.data.length ≤ s.bufLen →
      (if s.err.isSome then 1 else s.r.size + 2) ≤ fuel →
      (∃ s2, Scanner.scanLoop fuel s = .done s2) ∨
      (∃ s2 tok, Scanner.scanLoop fuel s = .found s2 ∧
        s2.start + s2.data.length ≤ s2.bufLen ∧
        s2.data.length + s2.r.size < s.data.length + s.r.size ∧
        s2.token = some tok ∧ 3 ≤ tok.length) := by
  induction fuel with
  | zero =>
    intro s _ hf
    split at hf <;> omega
  | succ fuel ih =>
    intro s hw hf
    rw [Scanner.scanLoop]
    rcases Scanner.trySplit_cases s hw with ⟨s2, h⟩ | ⟨s2, tok, h, hw2, hm, ht, h3⟩ | ⟨t, h⟩
    · rw [h]
      exact Or.inl ⟨s2, rfl⟩
    · rw [h]
      exact Or.inr ⟨s2, tok, rfl, hw2, hm, ht, h3⟩
    · rw [h]
      simp only
      obtain he | ⟨e, he⟩ : s.err = none ∨ ∃ e, s.err = some e := by
        cases s.err
        · exact Or.inl rfl
        · exact Or.inr ⟨_, rfl⟩
      rotate_left
      · rw [Scanner.readMore_err { s with token := t } e he]
        exact Or.inl ⟨_, rfl⟩
      · rcases Scanner.readMore_cases { s with token := t } he hw with
          ⟨s2, h2⟩ | ⟨s1, h2, hroom, hr1, hd1⟩
        · rw [h2]
          exact Or.inl ⟨s2, rfl⟩
        · rw [h2]
          simp only
          obtain ⟨g1, g2, g3⟩ := Scanner.readLoop_progress maxConsecutiveEmptyReads s1 hroom
          rw [hr1, hd1] at g2
          rw [hr1] at g3
          simp only at g2 g3
          rw [he] at hf
          simp only [Option.isSome_none, Bool.false_eq_true, if_false] at hf
          have hf2 : (if (Scanner.readLoop maxConsecutiveEmptyReads s1).err.isSome then 1
              else (Scanner.readLoop maxConsecutiveEmptyReads s1).r.size + 2) ≤ fuel := by
            split
            · omega
            · rename_i hne
              rcases g3 with g | g
              · exact absurd g hne
              · omega
          rcases ih _ g1 hf2 with ⟨s2, h3⟩ | ⟨s2, tok, h3, hw2, hm, ht, hl⟩
          · exact Or.inl ⟨s2, h3⟩
          · exact Or.inr ⟨s2, tok, h3, hw2, by omega, ht, hl⟩

/-! ## Theorems: where a panic of line 62 can come from -/

theorem Reader.read_noNilCause (r : Reader) (room : Nat) (h : r.NoNilCause) :
    (r.Read room).2.1 ≠ some (.opError none) ∧ (r.Read room).2.2.NoNilCause := by
  obtain ⟨hf, hp⟩ := h
  unfold Reader.Read
  cases hpend : r.pending with
  | nil =>
    simp only
    refine ⟨?_, hf, ?_⟩
    · intro hh
      exact hf (Option.some.inj hh)
    · rw [hpend]
      intro p hp2
      cases hp2
  | cons c rest =>
    obtain ⟨c, e⟩ := c
    rw [hpend] at hp
    simp only
    by_cases hroom : c.length ≤ room
    · rw [if_pos hroom]
      exact ⟨hp (c, e) (List.mem_cons_self _ _), hf,
        fun p hp2 => hp p (List.mem_cons_of_mem _ hp2)⟩
    · rw [if_neg hroom]
      refine ⟨fun hh => Option.noConfusion hh, hf, ?_⟩
      intro p hp2
      rcases List.mem_cons.mp hp2 with rfl | hp3
      · exact hp (c, e) (List.mem_cons_self _ _)
      · exact hp p (List.mem_cons_of_mem _ hp3)

theorem Scanner.setErr_noNilCause (s : Scanner) (e : GoError) (h : s.NoNilCause)
    (he : e ≠ .opError none) : (s.setErr e).NoNilCause := by
  unfold Scanner.setErr
  split
  · exact ⟨fun hh => he (Option.some.inj hh), h.2⟩
  · exact h

theorem Scanner.readLoop_noNilCause (k : Nat) :
    ∀ s : Scanner, s.NoNilCause → (Scanner.readLoop k s).NoNilCause := by
  induction k with
  | zero =>
    intro s h
    obtain ⟨h1, h2⟩ := Reader.read_noNilCause s.r (s.bufLen - s.stop) h.2
    unfold Scanner.readLoop
    generalize s.r.Read (s.bufLen - s.stop) = res at h1 h2
    obtain ⟨bs, err, r2⟩ := res
    simp only at h1 h2 ⊢
    have hs2 : ({ s with r := r2, data := s.data ++ bs } : Scanner).NoNilCause := ⟨h.1, h2⟩
    cases err with
    | some e => exact Scanner.setErr_noNilCause _ e hs2 (fun hh => h1 (congrArg some hh))
    | none =>
      simp only
      split
      · exact hs2
      · exact Scanner.setErr_noNilCause _ _ hs2 (fun hh => GoError.noConfusion hh)
  | succ k ih =>
    intro s h
    obtain ⟨h1, h2⟩ := Reader.read_noNilCause s.r (s.bufLen - s.stop) h.2
    unfold Scanner.readLoop
    generalize s.r.Read (s.bufLen - s.stop) = res at h1 h2
    obtain ⟨bs, err, r2⟩ := res
    simp only at h1 h2 ⊢
    have hs2 : ({ s with r := r2, data := s.data ++ bs } : Scanner).NoNilCause := ⟨h.1, h2⟩
    cases err with
    | some e => exact Scanner.setErr_noNilCause _ e hs2 (fun hh => h1 (congrArg some hh))
    | none =>
      simp only
      split
      · exact hs2
      · exact ih _ hs2

theorem splitFunc_err (data : List Byte) (atEOF : Bool) (r : SplitResult) (e : GoError)
    (h : splitFunc data atEOF = some r) (he : r.err = some e) : e ≠ .opError none := by
  unfold splitFunc at h
  split at h
  · cases h; cases he
  · split at h
    · cases h; cases he
    · cases hd : decodeU24 data 0 with
      | none => rw [hd] at h; cases h
      | some L =>
        rw [hd] at h
        simp only [Option.bind_eq_bind, Option.some_bind] at h
        split at h
        · cases h
          cases he
          intro hh
          cases hh
        · split at h
          · cases h; cases he
          · cases h; cases he

theorem Scanner.trySplit_noNilCause (s : Scanner) (h : s.NoNilCause) (s2 : Scanner)
    (h2 : s.trySplit = .inl (.done s2) ∨ s.trySplit = .inl (.found s2) ∨ s.trySplit = .inr s2) :
    s2.NoNilCause := by
  unfold Scanner.trySplit at h2
  split at h2
  · cases hsp : splitFunc s.data s.err.isSome with
    | none =>
      rw [hsp] at h2
      simp only at h2
      rcases h2 with h2 | h2 | h2 <;> cases h2
    | some res =>
      obtain ⟨adv, tok, err⟩ := res
      rw [hsp] at h2
      cases err with
      | some e =>
        simp only at h2
        have he := splitFunc_err _ _ _ e hsp rfl
        rcases h2 with h2 | h2 | h2
        · simp only [Sum.inl.injEq, ScanResult.done.injEq] at h2
          rw [← h2]
          exact Scanner.setErr_noNilCause s e h he
        · cases h2
        · cases h2
      | none =>
        simp only at h2
        split at h2
        · rcases h2 with h2 | h2 | h2
          · simp only [Sum.inl.injEq, ScanResult.done.injEq] at h2
            rw [← h2]
            exact Scanner.setErr_noNilCause s _ h (fun hh => GoError.noConfusion hh)
          · cases h2
          · cases h2
        · cases tok with
          | some t =>
            simp only at h2
            rcases h2 with h2 | h2 | h2
            · cases h2
            · simp only [Sum.inl.injEq, ScanResult.found.injEq] at h2
              rw [← h2]
              exact h
            · cases h2
          | none =>
            simp only at h2
            rcases h2 with h2 | h2 | h2
            · cases h2
            · cases h2
            · simp only [Sum.inr.injEq] at h2
              rw [← h2]
              exact h
  · rcases h2 with h2 | h2 | h2
    · cases h2
    · cases h2
    · simp only [Sum.inr.injEq] at h2
      rw [← h2]
      exact h

theorem Scanner.readMore_noNilCause (s : Scanner) (h : s.NoNilCause) (s2 : Scanner)
    (h2 : s.readMore = .inl (.done s2) ∨ s.readMore = .inl (.found s2) ∨ s.readMore = .inr s2) :
    s2.NoNilCause := by
  unfold Scanner.readMore at h2
  split at h2
  · rcases h2 with h2 | h2 | h2
    · simp only [Sum.inl.injEq, ScanResult.done.injEq] at h2
      rw [← h2]
      exact h
    · cases h2
    · cases h2
  · have hshift : (if s.start > 0 ∧ (s.stop = s.bufLen ∨ s.start > s.bufLen / 2) then
        { s with start := 0 } else s).NoNilCause := by
      split
      · exact h
      · exact h
    generalize (if s.start > 0 ∧ (s.stop = s.bufLen ∨ s.start > s.bufLen / 2) then
        { s with start := 0 } else s) = t at h2 hshift
    simp only at h2
    split at h2
    · split at h2
      · rcases h2 with h2 | h2 | h2
        · simp only [Sum.inl.injEq, ScanResult.done.injEq] at h2
          rw [← h2]
          exact Scanner.setErr_noNilCause t _ hshift (fun hh => GoError.noConfusion hh)
        · cases h2
        · cases h2
      · rcases h2 with h2 | h2 | h2
        · cases h2
        · cases h2
        · simp only [Sum.inr.injEq] at h2
          rw [← h2]
          exact Scanner.readLoop_noNilCause _ _ hshift
    · rcases h2 with h2 | h2 | h2
      · cases h2
      · cases h2
      · simp only [Sum.inr.injEq] at h2
        rw [← h2]
        exact Scanner.readLoop_noNilCause _ _ hshift

theorem Scanner.scanLoop_noNilCause (fuel : Nat) :
    ∀ s : Scanner, s.NoNilCause → ∀ s2 : Scanner,
      (Scanner.scanLoop fuel s = .done s2 ∨ Scanner.scanLoop fuel s = .found s2) →
      s2.NoNilCause := by
  induction fuel with
  | zero =>
    intro s _ s2 h2
    rcases h2 with h2 | h2 <;> cases h2
  | succ fuel ih =>
    intro s h s2 h2
    rw [Scanner.scanLoop] at h2
    cases ht : s.trySplit with
    | inl res =>
      rw [ht] at h2
      simp only at h2
      rcases h2 with h2 | h2
      · exact Scanner.trySplit_noNilCause s h s2 (Or.inl (by rw [ht, h2]))
      · exact Scanner.trySplit_noNilCause s h s2 (Or.inr (Or.inl (by rw [ht, h2])))
    | inr t =>
      rw [ht] at h2
      simp only at h2
      have hsafe := Scanner.trySplit_noNilCause s h t (Or.inr (Or.inr ht))
      cases hm : t.readMore with
      | inl res =>
        rw [hm] at h2
        simp only at h2
        rcases h2 with h2 | h2
        · exact Scanner.readMore_noNilCause t hsafe s2 (Or.inl (by rw [hm, h2]))
        · exact Scanner.readMore_noNilCause t hsafe s2 (Or.inr (Or.inl (by rw [hm, h2])))
      | inr u =>
        rw [hm] at h2
        simp only at h2
        exact ih u (Scanner.readMore_noNilCause t hsafe u (Or.inr (Or.inr hm))) s2 h2

theorem afterScan_cases (s : Scanner) :
    (∃ err, afterScan s = .returned err) ∨
    (afterScan s = .panicked ∧ s.err = some (.opError none)) := by
  unfold afterScan Scanner.Err
  by_cases h : s.err = some .EOF
  · rw [if_pos h]
    exact Or.inl ⟨_, rfl⟩
  · rw [if_neg h]
    cases he : s.err with
    | none => exact Or.inl ⟨_, rfl⟩
    | some e =>
      simp only
      cases e with
      | opError cause =>
        cases cause with
        | none => exact Or.inr ⟨rfl, rfl⟩
        | some c =>
          simp only [isClosedConn]
          split
          · rename_i hh; cases hh
          · exact Or.inl ⟨_, rfl⟩
          · exact Or.inl ⟨_, rfl⟩
      | EOF => exact Or.inl ⟨_, rfl⟩
      | badFrameLength n => exact Or.inl ⟨_, rfl⟩
      | ErrTooLong => exact Or.inl ⟨_, rfl⟩
      | ErrAdvanceTooFar => exact Or.inl ⟨_, rfl⟩
      | ErrNoProgress => exact Or.inl ⟨_, rfl⟩
      | malformedHeader => exact Or.inl ⟨_, rfl⟩
      | other msg => exact Or.inl ⟨_, rfl⟩

theorem handleLoop_total (ctx : Context) (fn : FrameHandler) (fuel : Nat) :
    ∀ (s : Scanner) (tr : List Invocation), s.start + s.data.length ≤ s.bufLen →
      s.data.length + s.r.size < fuel →
      ∃ invs, (∃ err, handleLoop ctx fn fuel s tr = (invs, .returned err)) ∨
        (handleLoop ctx fn fuel s tr = (invs, .panicked) ∧ ¬ s.NoNilCause) := by
  induction fuel with
  | zero => intro s tr _ hf; omega
  | succ fuel ih =>
    intro s tr hw hf
    rw [handleLoop]
    have hsafe := Scanner.scanLoop_noNilCause (s.r.size + 2) s
    have hscan := Scanner.scanLoop_total (s.r.size + 2) s hw (by split <;> omega)
    rcases hscan with ⟨s2, h⟩ | ⟨s2, tok, h, hw2, hm, ht, hl⟩
    · rw [Scanner.Scan, h]
      rcases afterScan_cases s2 with ⟨err, he⟩ | ⟨he, hn⟩
      · exact ⟨tr, Or.inl ⟨err, by simp only [he]⟩⟩
      · exact ⟨tr, Or.inr ⟨by simp only [he], fun hs => (hsafe hs s2 (Or.inl h)).1 hn⟩⟩
    · rw [Scanner.Scan, h]
      simp only [ht]
      rcases dispatch_cases ctx fn tr tok hl with ⟨tr2, hd⟩ | ⟨tr2, e, hd⟩
      · rw [hd]
        obtain ⟨invs, hres⟩ := ih s2 tr2 hw2 (by omega)
        rcases hres with hres | ⟨hres, hn⟩
        · exact ⟨invs, Or.inl hres⟩
        · exact ⟨invs, Or.inr ⟨hres, fun hs => hn (hsafe hs s2 (Or.inr h))⟩⟩
      · rw [hd]
        exact ⟨_, Or.inl ⟨_, rfl⟩⟩

/-- `Handle` comes to an end for every reader, context and handler: it returns, or it
panics, and it panics only when the reader reports a `*net.OpError` whose `Err` is
`nil`. -/
theorem Handle_total (r : Reader) (ctx : Context) (fn : FrameHandler) :
    ∃ invs, (∃ err, Handle r ctx fn = (invs, .returned err)) ∨
      (Handle r ctx fn = (invs, .panicked) ∧ ¬ r.NoNilCause) := by
  obtain ⟨invs, h⟩ := handleLoop_total ctx fn (r.size + 1) (newScanner r) []
    (by simp [newScanner, defaultBuffSize]) (by simp [newScanner])
  rcases h with h | ⟨h, hn⟩
  · exact ⟨invs, Or.inl h⟩
  · exact ⟨invs, Or.inr ⟨h, fun hr => hn ⟨by simp [newScanner], hr⟩⟩⟩

theorem Handle_returns (r : Reader) (ctx : Context) (fn : FrameHandler)
    (h : r.NoNilCause) : ∃ invs err, Handle r ctx fn = (invs, .returned err) := by
  obtain ⟨invs, hres⟩ := Handle_total r ctx fn
  rcases hres with ⟨err, hres⟩ | ⟨-, hn⟩
  · exact ⟨invs, err, hres⟩
  · exact absurd h hn

/-- A reader that reports `io.EOF` together with its last bytes: the split function
is then called with `atEOF` set, and the bytes, here a complete record, are dropped
without an error. -/
theorem Handle_EOF_with_data :
    Handle ⟨[(wire [0, 0, 0, 1, 16, 0], some .EOF)], .EOF⟩ (fun _ => none) (fun _ _ _ => none)
      = ([], .returned none) := by
  decide

/-! ## Theorems: slicing -/

theorem sliceMetadataAndData_unset (header : Header) (raw : List Byte) (o : Nat)
    (hf : header.Flags.Check FlagMetadata = false) (ho : o ≤ raw.length) :
    sliceMetadataAndData header raw o = some (none, raw.drop o) := by
  simp [sliceMetadataAndData, hf, ho]

theorem sliceMetadataAndData_set (header : Header) (raw : List Byte) (o L : Nat)
    (hf : header.Flags.Check FlagMetadata = true) (hL : decodeU24 raw o = some L)
    (hfit : o + 3 + L ≤ raw.length) :
    sliceMetadataAndData header raw o
      = some (some ((raw.drop (o + 3)).take L), raw.drop (o + 3 + L)) := by
  simp [sliceMetadataAndData, hf, hL, hfit]

theorem sliceMetadata_unset (header : Header) (raw spare : List Byte) (o : Nat)
    (hf : header.Flags.Check FlagMetadata = false) :
    sliceMetadata header raw spare o = some none := by
  simp [sliceMetadata, hf]

theorem sliceMetadata_set (header : Header) (raw spare : List Byte) (o L : Nat)
    (hf : header.Flags.Check FlagMetadata = true) (hL : decodeU24 raw o = some L)
    (hfit : o + 3 + L ≤ raw.length) :
    sliceMetadata header raw spare o = some (some ((raw.drop (o + 3)).take L)) := by
  have hcap : o + 3 + L ≤ raw.length + spare.length := by omega
  simp only [sliceMetadata, hf, Bool.not_true, Bool.false_eq_true, if_false, hL,
    Option.bind_eq_bind, Option.some_bind, hcap, if_true]
  rw [List.drop_append_of_le_length (by omega), List.take_append_of_le_length]
  rw [List.length_drop]
  omega

theorem sliceMetadataAndData_some (header : Header) (raw : List Byte) (o : Nat)
    (m : Option (List Byte)) (d : List Byte)
    (h : sliceMetadataAndData header raw o = some (m, d)) :
    (header.Flags.Check FlagMetadata = false ∧ o ≤ raw.length ∧ m = none) ∨
    (header.Flags.Check FlagMetadata = true ∧
      ∃ L, decodeU24 raw o = some L ∧ o + 3 + L ≤ raw.length ∧
        m = some ((raw.drop (o + 3)).take L)) := by
  cases hf : header.Flags.Check FlagMetadata with
  | false =>
    left
    by_cases ho : o ≤ raw.length
    · rw [sliceMetadataAndData_unset header raw o hf ho] at h
      cases h
      exact ⟨rfl, ho, rfl⟩
    · simp [sliceMetadataAndData, hf, ho] at h
  | true =>
    right
    refine ⟨rfl, ?_⟩
    cases hL : decodeU24 raw o with
    | none => simp [sliceMetadataAndData, hf, hL] at h
    | some L =>
      by_cases hfit : o + 3 + L ≤ raw.length
      · rw [sliceMetadataAndData_set header raw o L hf hL hfit] at h
        cases h
        exact ⟨L, rfl, hfit, rfl⟩
      · simp [sliceMetadataAndData, hf, hL, hfit] at h

/-! ## Theorems: the split function, continued -/

theorem splitFunc_token (buf : List Byte) (r : SplitResult) (tok : List Byte)
    (h : splitFunc buf false = some r) (ht : r.token = some tok) :
    ∃ L, classify buf = .record L ∧ r = ⟨L + 3, some (buf.take (L + 3)), none⟩ := by
  rw [splitFunc_classify] at h
  cases hc : classify buf with
  | record L =>
    rw [hc] at h
    simp only [Option.some.injEq] at h
    exact ⟨L, rfl, h.symm⟩
  | bad =>
    rw [hc] at h
    simp only [Option.some.injEq] at h
    subst h
    cases ht
  | short =>
    rw [hc] at h
    simp only [Option.some.injEq] at h
    subst h
    cases ht

theorem splitFunc_error (buf : List Byte) (r : SplitResult) (e : GoError)
    (h : splitFunc buf false = some r) (he : r.err = some e) :
    classify buf = .bad ∧ r = ⟨0, none, some (.badFrameLength 0)⟩ := by
  rw [splitFunc_classify] at h
  cases hc : classify buf with
  | record L =>
    rw [hc] at h
    simp only [Option.some.injEq] at h
    subst h
    cases he
  | bad =>
    rw [hc] at h
    simp only [Option.some.injEq] at h
    exact ⟨rfl, h.symm⟩
  | short =>
    rw [hc] at h
    simp only [Option.some.injEq] at h
    subst h
    cases he

theorem asHeader_short (record : List Byte) (h : record.length < 6) :
    asHeader record = .error .malformedHeader := by
  match record, h with
  | [], _ => rfl
  | [_], _ => rfl
  | [_, _], _ => rfl
  | [_, _, _], _ => rfl
  | [_, _, _, _], _ => rfl
  | [_, _, _, _, _], _ => rfl
  | _ :: _ :: _ :: _ :: _ :: _ :: rest, h =>
    simp only [List.length_cons] at h
    omega

/-! ## Theorems: cancellation, for any reader -/

theorem dispatch_ctx_congr (ctx1 ctx2 : Context) (fn : FrameHandler) (tr : List Invocation)
    (token : Option (List Byte)) (h : ctx1 tr.length = ctx2 tr.length) :
    dispatch ctx1 fn tr token = dispatch ctx2 fn tr token := by
  simp only [dispatch, h]

theorem dispatch_shape (ctx : Context) (fn : FrameHandler) (tr : List Invocation)
    (token : Option (List Byte)) :
    (∃ x, dispatch ctx fn tr token = (tr ++ [x], none)) ∨
    (∃ res, dispatch ctx fn tr token = (tr, some res)) ∨
    (∃ x res, dispatch ctx fn tr token = (tr ++ [x], some res)) := by
  cases hc : ctx tr.length with
  | some e => exact Or.inr (Or.inl ⟨.returned (some e), by simp only [dispatch, hc]⟩)
  | none =>
    cases hr : token.bind recordOf with
    | none => exact Or.inr (Or.inl ⟨.panicked, by simp only [dispatch, hc, hr]⟩)
    | some d =>
      cases ha : asHeader d with
      | error err =>
        exact Or.inr (Or.inl ⟨.returned (some err), by simp only [dispatch, hc, hr, ha]⟩)
      | ok hd =>
        cases hf : fn tr hd d with
        | some err =>
          exact Or.inr (Or.inr ⟨(hd, d), .returned (some err),
            by simp only [dispatch, hc, hr, ha, hf]⟩)
        | none => exact Or.inl ⟨(hd, d), by simp only [dispatch, hc, hr, ha, hf]⟩

theorem handleLoop_extends (ctx : Context) (fn : FrameHandler) (fuel : Nat) :
    ∀ (s : Scanner) (tr : List Invocation),
      ∃ more, (handleLoop ctx fn fuel s tr).1 = tr ++ more := by
  induction fuel with
  | zero => intro s tr; exact ⟨[], by simp [handleLoop]⟩
  | succ fuel ih =>
    intro s tr
    rw [handleLoop]
    cases hs : s.Scan with
    | outOfFuel => exact ⟨[], by simp⟩
    | panicked => exact ⟨[], by simp⟩
    | done s2 => exact ⟨[], by simp⟩
    | found s2 =>
      simp only
      rcases dispatch_shape ctx fn tr s2.token with ⟨x, hd⟩ | ⟨res, hd⟩ | ⟨x, res, hd⟩
      · rw [hd]
        obtain ⟨more, hm⟩ := ih s2 (tr ++ [x])
        exact ⟨x :: more, by simp only [hm, List.append_assoc, List.singleton_append]⟩
      · rw [hd]
        exact ⟨[], by simp⟩
      · rw [hd]
        exact ⟨[x], rfl⟩

/-! ## Theorems: the end of the stream -/

theorem isClosedConn_iff (e : GoError) :
    isClosedConn e = some true ↔
      ∃ cause, e = .opError (some cause) ∧
        cause.toList.map foldRune = "use of closed network connection".toList := by
  cases e with
  | opError cause =>
    cases cause with
    | none => simp [isClosedConn]
    | some cause =>
      simp only [isClosedConn, Option.some.injEq, beq_iff_eq, GoError.opError.injEq,
        exists_eq_left']
  | EOF => simp [isClosedConn]
  | badFrameLength n => simp [isClosedConn]
  | ErrTooLong => simp [isClosedConn]
  | ErrAdvanceTooFar => simp [isClosedConn]
  | ErrNoProgress => simp [isClosedConn]
  | malformedHeader => simp [isClosedConn]
  | other msg => simp [isClosedConn]

theorem Handle_failing (pieces records : List (List Byte)) (tail : List Byte)
    (ctx : Context) (fn : FrameHandler) (e : GoError) (hpieces : ∀ c ∈ pieces, c ≠ [])
    (hstream : pieces.flatten = wireAll records ++ tail)
    (hvalid : ∀ record ∈ records, ValidRecord record) (htail : classify tail = .short)
    (hctx : ∀ k, ctx k = none) (hfn : ∀ tr h d, fn tr h d = none) :
    ∃ invs, Delivers invs records ∧
      Handle (Reader.failing pieces e) ctx fn = (invs, endOfStream e) := by
  have hsteady := Reader.failing_isSteady pieces e hpieces
  have hinv := newScanner_inv _ hsteady
  have hst : (newScanner (Reader.failing pieces e)).stream = wireAll records ++ tail := by
    rw [newScanner_stream, Reader.failing_bytes, hstream]
  have hfuel : (newScanner (Reader.failing pieces e)).stream.length
      < (Reader.failing pieces e).size + 1 := by
    rw [newScanner_stream]
    have := Reader.bytes_length_le_size (Reader.failing pieces e)
    omega
  rcases handleLoop_records ctx fn records _ _ [] tail hinv hst hfuel hvalid with
    ⟨s2, fuel2, invs, heq, hdel, ⟨hinv2, hfin2⟩, hs2, hf2⟩ | ⟨invs, e2, k, -, -, -, hwhy⟩
  · obtain ⟨f, rfl⟩ : ∃ f, fuel2 = f + 1 := ⟨fuel2 - 1, by omega⟩
    have hc : classify s2.stream = .short := by rw [hs2]; exact htail
    refine ⟨invs, hdel, ?_⟩
    rw [Handle, heq, List.nil_append, handleLoop_short ctx fn f s2 invs hinv2 hc, hfin2]
    rfl
  · rcases hwhy with ⟨j, hj⟩ | ⟨t, h, d, hf⟩
    · rw [hctx j] at hj
      cases hj
    · rw [hfn t h d] at hf
      cases hf

/-! ## Theorems: the extraction of the record at which a run is cancelled -/

theorem extractsLoop_cancel (ctx : Context) (fn : FrameHandler) (i : Nat) (e : GoError)
    (hbefore : ∀ j, j < i → ctx j = none) (hat : ctx i = some e) (fuel : Nat) :
    ∀ (s : Scanner) (tr : List Invocation), tr.length ≤ i →
      extractsLoop fn i fuel s tr = true →
      handleLoop ctx fn fuel s tr
        = ((handleLoop (fun _ => none) fn fuel s tr).1.take i, .returned (some e)) ∧
      i ≤ (handleLoop (fun _ => none) fn fuel s tr).1.length := by
  induction fuel with
  | zero =>
    intro s tr _ hx
    simp only [extractsLoop] at hx
    cases hx
  | succ fuel ih =>
    intro s tr hle hx
    obtain ⟨more, hmore⟩ := handleLoop_extends (fun _ => none) fn (fuel + 1) s tr
    rw [extractsLoop] at hx
    rw [handleLoop] at hmore ⊢
    rw [handleLoop]
    cases hs : s.Scan with
    | outOfFuel => rw [hs] at hx; cases hx
    | panicked => rw [hs] at hx; cases hx
    | done s2 => rw [hs] at hx; cases hx
    | found s2 =>
      rw [hs] at hx hmore
      simp only at hx hmore ⊢
      by_cases heq : tr.length = i
      · have hc : ctx tr.length = some e := by rw [heq]; exact hat
        rw [dispatch_cancelled ctx fn tr s2.token e hc]
        simp only
        rw [hmore, ← heq, List.take_left' rfl]
        exact ⟨rfl, by simp⟩
      · rw [if_neg heq] at hx
        have hlt2 : tr.length < i := by omega
        have hc : ctx tr.length = (fun _ => none : Context) tr.length := hbefore _ hlt2
        rw [dispatch_ctx_congr ctx (fun _ => none) fn tr s2.token hc]
        rcases dispatch_shape (fun _ => none) fn tr s2.token with
          ⟨x, hd⟩ | ⟨res, hd⟩ | ⟨x, res, hd⟩
        · rw [hd] at hx ⊢
          simp only at hx ⊢
          exact ih s2 (tr ++ [x]) (by simp only [List.length_append, List.length_singleton]; omega)
            hx
        · rw [hd] at hx
          cases hx
        · rw [hd] at hx
          cases hx

theorem extractsLoop_not (ctx : Context) (fn : FrameHandler) (i : Nat)
    (hbefore : ∀ j, j < i → ctx j = none) (fuel : Nat) :
    ∀ (s : Scanner) (tr : List Invocation), tr.length ≤ i →
      extractsLoop fn i fuel s tr = false →
      handleLoop ctx fn fuel s tr = handleLoop (fun _ => none) fn fuel s tr := by
  induction fuel with
  | zero =>
    intro s tr _ _
    rfl
  | succ fuel ih =>
    intro s tr hle hx
    rw [extractsLoop] at hx
    rw [handleLoop, handleLoop]
    cases hs : s.Scan with
    | outOfFuel => rfl
    | panicked => rfl
    | done s2 => rfl
    | found s2 =>
      rw [hs] at hx
      simp only at hx ⊢
      by_cases heq : tr.length = i
      · rw [if_pos heq] at hx
        cases hx
      · rw [if_neg heq] at hx
        have hlt2 : tr.length < i := by omega
        have hc : ctx tr.length = (fun _ => none : Context) tr.length := hbefore _ hlt2
        rw [dispatch_ctx_congr ctx (fun _ => none) fn tr s2.token hc]
        rcases dispatch_shape (fun _ => none) fn tr s2.token with
          ⟨x, hd⟩ | ⟨res, hd⟩ | ⟨x, res, hd⟩
        · rw [hd] at hx ⊢
          simp only at hx ⊢
          exact ih s2 (tr ++ [x]) (by simp only [List.length_append, List.length_singleton]; omega)
            hx
        · rw [hd]
        · rw [hd]

theorem extractsLoop_of_trace (fn : FrameHandler) (i : Nat) (fuel : Nat) :
    ∀ (s : Scanner) (tr : List Invocation), tr.length ≤ i →
      i < (handleLoop (fun _ => none) fn fuel s tr).1.length →
      extractsLoop fn i fuel s tr = true := by
  induction fuel with
  | zero =>
    intro s tr hle hlt
    simp only [handleLoop] at hlt
    omega
  | succ fuel ih =>
    intro s tr hle hlt
    rw [handleLoop] at hlt
    rw [extractsLoop]
    cases hs : s.Scan with
    | outOfFuel => rw [hs] at hlt; simp only at hlt; omega
    | panicked => rw [hs] at hlt; simp only at hlt; omega
    | done s2 => rw [hs] at hlt; simp only at hlt; omega
    | found s2 =>
      rw [hs] at hlt
      simp only at hlt ⊢
      by_cases heq : tr.length = i
      · rw [if_pos heq]
      · rw [if_neg heq]
        rcases dispatch_shape (fun _ => none) fn tr s2.token with
          ⟨x, hd⟩ | ⟨res, hd⟩ | ⟨x, res, hd⟩
        · rw [hd] at hlt ⊢
          simp only at hlt ⊢
          exact ih s2 (tr ++ [x]) (by simp only [List.length_append, List.length_singleton]; omega)
            hlt
        · rw [hd] at hlt
          simp only at hlt
          omega
        · rw [hd] at hlt
          simp only [List.length_append, List.length_singleton] at hlt
          omega

theorem extractsLoop_records (fn : FrameHandler) (i : Nat)
    (hfn : ∀ tr h d, tr.length < i → fn tr h d = none) :
    ∀ (records : List (List Byte)) (fuel : Nat) (s : Scanner) (tr : List Invocation)
      (x rest : List Byte), s.Inv → s.stream = wireAll records ++ (wire x ++ rest) →
      s.stream.length < fuel → (∀ record ∈ records, ValidRecord record) →
      1 ≤ x.length → x.length ≤ 16777215 → tr.length + records.length = i →
      extractsLoop fn i fuel s tr = true := by
  intro records
  induction records with
  | nil =>
    intro fuel s tr x rest hinv hst hfuel _ hx1 hx2 hi
    obtain ⟨f, rfl⟩ : ∃ f, fuel = f + 1 := ⟨fuel - 1, by omega⟩
    have hst2 : s.stream = wire x ++ rest := by simpa [wireAll] using hst
    have hc : classify s.stream = .record x.length := by
      rw [hst2]
      exact classify_wire _ _ hx1 hx2
    have hpost := Scanner.Scan_clean s hinv
    simp only [ScanPost, hc] at hpost
    obtain ⟨s2, hscan, -⟩ := hpost
    rw [extractsLoop, hscan]
    simp only
    rw [if_pos (by simpa using hi)]
  | cons record more ih =>
    intro fuel s tr x rest hinv hst hfuel hvalid hx1 hx2 hi
    obtain ⟨hv6, hvmax⟩ := hvalid record (List.mem_cons_self _ _)
    have hv6 : 6 ≤ record.length := hv6
    obtain ⟨f, rfl⟩ : ∃ f, fuel = f + 1 := ⟨fuel - 1, by omega⟩
    have hst2 : s.stream = wire record ++ (wireAll more ++ (wire x ++ rest)) := by
      rw [hst, wireAll_cons, List.append_assoc]
    have hc : classify s.stream = .record record.length := by
      rw [hst2]
      exact classify_wire _ _ (by omega) hvmax
    have hpost := Scanner.Scan_clean s hinv
    simp only [ScanPost, hc] at hpost
    obtain ⟨s2, hscan, hinv2, htok, hs2, -⟩ := hpost
    rw [hst2, take_wire] at htok
    rw [hst2, drop_wire] at hs2
    obtain ⟨hd, hhd⟩ := asHeader_ok record hv6
    simp only [List.length_cons] at hi
    rw [extractsLoop, hscan]
    simp only
    rw [if_neg (by omega), htok,
      dispatch_wire_nil (fun _ => none) fn tr record hd hhd rfl (hfn tr hd record (by omega))]
    simp only
    apply ih f s2 (tr ++ [(hd, record)]) x rest hinv2 hs2 _
      (fun r hr => hvalid r (List.mem_cons_of_mem _ hr)) hx1 hx2
    · simp only [List.length_append, List.length_singleton]
      omega
    · have := congrArg List.length hst2
      rw [List.length_append, wire_length] at this
      rw [hs2]
      omega

theorem Extracts_records (pieces records : List (List Byte)) (x rest : List Byte)
    (final : GoError) (fn : FrameHandler) (hpieces : ∀ c ∈ pieces, c ≠ [])
    (hstream : pieces.flatten = wireAll records ++ (wire x ++ rest))
    (hvalid : ∀ record ∈ records, ValidRecord record)
    (hx1 : 1 ≤ x.length) (hx2 : x.length ≤ 16777215)
    (hfn : ∀ tr h d, tr.length < records.length → fn tr h d = none) :
    Extracts (Reader.failing pieces final) fn records.length = true := by
  have hsteady := Reader.failing_isSteady pieces final hpieces
  have hinv := newScanner_inv _ hsteady
  have hst : (newScanner (Reader.failing pieces final)).stream
      = wireAll records ++ (wire x ++ rest) := by
    rw [newScanner_stream, Reader.failing_bytes, hstream]
  have hfuel : (newScanner (Reader.failing pieces final)).stream.length
      < (Reader.failing pieces final).size + 1 := by
    rw [newScanner_stream]
    have := Reader.bytes_length_le_size (Reader.failing pieces final)
    omega
  exact extractsLoop_records fn records.length hfn records _ _ [] x rest hinv hst hfuel hvalid
    hx1 hx2 (by simp)

/-! ## Theorems: the closed-connection test -/

theorem foldRune_eq (c : Char) :
    foldRune c = if c = Char.ofNat 0x212A then 'k'
      else if c = Char.ofNat 0x017F then 's' else c.toLower := by
  have hA : ('A' ≤ c ∧ c ≤ 'Z') ↔ (c.toNat ≥ 65 ∧ c.toNat ≤ 90) := by
    simp only [Char.le_def, Char.toNat, UInt32.le_def, ge_iff_le]
    constructor
    · rintro ⟨h1, h2⟩
      exact ⟨h1, h2⟩
    · rintro ⟨h1, h2⟩
      exact ⟨h1, h2⟩
  have hk : c = Char.ofNat 0x212A ↔ c.toNat = 0x212A := by
    constructor
    · intro h
      rw [h]
      decide
    · intro h
      rw [← Char.ofNat_toNat c, h]
  have hs : c = Char.ofNat 0x017F ↔ c.toNat = 0x017F := by
    constructor
    · intro h
      rw [h]
      decide
    · intro h
      rw [← Char.ofNat_toNat c, h]
  unfold foldRune Char.toLower
  by_cases h : 'A' ≤ c ∧ c ≤ 'Z'
  · have h2 := hA.mp h
    rw [if_pos h, if_neg (by rw [hk]; omega), if_neg (by rw [hs]; omega)]
    simp only
    rw [if_pos h2]
  · have h2 : ¬ (c.toNat ≥ 65 ∧ c.toNat ≤ 90) := fun hh => h (hA.mpr hh)
    rw [if_neg h]
    simp only
    rw [if_neg h2]
    by_cases h3 : c.toNat = 0x212A
    · rw [if_pos h3, if_pos (hk.mpr h3)]
    · rw [if_neg h3, if_neg (fun hh => h3 (hk.mp hh))]
      by_cases h4 : c.toNat = 0x017F
      · rw [if_pos h4, if_pos (hs.mpr h4)]
      · rw [if_neg h4, if_neg (fun hh => h4 (hs.mp hh))]

theorem map_foldRune_eq (cs : List Char) :
    cs.map foldRune = cs.map (fun c => if c = Char.ofNat 0x212A then 'k'
      else if c = Char.ofNat 0x017F then 's' else c.toLower) :=
  List.map_congr_left (fun c _ => foldRune_eq c)

theorem map_foldRune_of_toLower (cs ts : List Char) (h : cs.map Char.toLower = ts)
    (hk : Char.ofNat 0x212A ∉ ts) (hs : Char.ofNat 0x017F ∉ ts) :
    cs.map foldRune = ts := by
  rw [← h]
  apply List.map_congr_left
  intro c hc
  have hmem : c.toLower ∈ ts := by
    rw [← h]
    exact List.mem_map_of_mem _ hc
  rw [foldRune_eq]
  by_cases h1 : c = Char.ofNat 0x212A
  · subst h1
    exact absurd hmem hk
  · rw [if_neg h1]
    by_cases h2 : c = Char.ofNat 0x017F
    · subst h2
      exact absurd hmem hs
    · rw [if_neg h2]

theorem endOfStream_nilCause : endOfStream (.opError none) = .panicked := rfl

theorem endOfStream_cases (e : GoError) (he : e ≠ .EOF) (hn : e ≠ .opError none) :
    (isClosedConn e = some true ∧ endOfStream e = .returned none) ∨
    (isClosedConn e = some false ∧ endOfStream e = .returned (some e)) := by
  unfold endOfStream
  rw [if_neg he]
  cases hc : isClosedConn e with
  | none =>
    exfalso
    cases e with
    | opError cause =>
      cases cause with
      | none => exact hn rfl
      | some c => simp [isClosedConn] at hc
    | EOF => simp [isClosedConn] at hc
    | badFrameLength n => simp [isClosedConn] at hc
    | ErrTooLong => simp [isClosedConn] at hc
    | ErrAdvanceTooFar => simp [isClosedConn] at hc
    | ErrNoProgress => simp [isClosedConn] at hc
    | malformedHeader => simp [isClosedConn] at hc
    | other msg => simp [isClosedConn] at hc
  | some b =>
    cases b with
    | true => exact Or.inl ⟨rfl, rfl⟩
    | false => exact Or.inr ⟨rfl, rfl⟩

/-! ## Theorems: a record shorter than a header -/

theorem dispatch_short (ctx : Context) (fn : FrameHandler) (tr : List Invocation)
    (tok : List Byte) (h3 : 3 ≤ tok.length) (h6 : tok.length < 3 + headerLen)
    (hc : ctx tr.length = none) :
    dispatch ctx fn tr (some tok) = (tr, some (.returned (some .malformedHeader))) := by
  have hrec : (some tok).bind recordOf = some (tok.drop 3) := by
    simp only [Option.some_bind, recordOf, if_pos h3]
  have hh : asHeader (tok.drop 3) = .error .malformedHeader :=
    asHeader_short _ (by rw [List.length_drop]; unfold headerLen at h6; omega)
  simp only [dispatch, hc, hrec, hh]

theorem Handle_short_record (pieces records : List (List Byte)) (buf : List Byte) (L : Nat)
    (ctx : Context) (fn : FrameHandler) (hpieces : ∀ c ∈ pieces, c ≠ [])
    (hstream : pieces.flatten = wireAll records ++ buf)
    (hvalid : ∀ record ∈ records, ValidRecord record)
    (hL : decodeU24 buf 0 = some L) (h1 : 1 ≤ L) (h6 : L < headerLen)
    (hfit : 3 + L ≤ buf.length)
    (hctx : ∀ k, ctx k = none) (hfn : ∀ tr h d, fn tr h d = none) :
    ∃ invs, Delivers invs records ∧
      Handle (Reader.clean pieces) ctx fn = (invs, .returned (some .malformedHeader)) := by
  have hclean := Reader.clean_isClean pieces hpieces
  have hinv := newScanner_inv _ hclean.steady
  have hst : (newScanner (Reader.clean pieces)).stream = wireAll records ++ buf := by
    rw [newScanner_stream, Reader.clean_bytes, hstream]
  have hfuel : (newScanner (Reader.clean pieces)).stream.length
      < (Reader.clean pieces).size + 1 := by
    rw [newScanner_stream]
    have := Reader.bytes_length_le_size (Reader.clean pieces)
    omega
  rcases handleLoop_records ctx fn records _ _ [] buf hinv hst hfuel hvalid with
    ⟨s2, fuel2, invs, heq, hdel, ⟨hinv2, -⟩, hs2, hf2⟩ | ⟨invs, e2, k, -, -, -, hwhy⟩
  · obtain ⟨f, rfl⟩ : ∃ f, fuel2 = f + 1 := ⟨fuel2 - 1, by omega⟩
    have hc : classify s2.stream = .record L := by
      rw [hs2, classify_of_decode buf L hL, if_neg (by omega), if_pos (by omega)]
    obtain ⟨s3, -, -, hstep⟩ := handleLoop_record ctx fn f s2 ([] ++ invs) L hinv2 hc
    have hd := dispatch_short ctx fn ([] ++ invs) (s2.stream.take (L + 3))
      (by rw [List.length_take, hs2]; omega)
      (by rw [List.length_take, hs2]; unfold headerLen at h6 ⊢; omega) (hctx _)
    rw [hd] at hstep
    refine ⟨invs, hdel, ?_⟩
    rw [Handle, heq, hstep, List.nil_append]
  · rcases hwhy with ⟨j, hj⟩ | ⟨t, h, d, hf⟩
    · rw [hctx j] at hj
      cases hj
    · rw [hfn t h d] at hf
      cases hf

/-! ## The claims -/

/-- C1: round trip of the request-response body. For every stream id, data and
metadata with `len(metadata) ≤ 16777215` and extra flags none of which contains the
Metadata bit, `sliceMetadataAndData` at offset 0 on the header and body built by
`NewFrameRequestResponse` returns `(metadata, data)` when the metadata is not
empty and `(absent, data)` when it is empty. -/
theorem C1_request_response_round_trip (id : Nat) (data metadata : List Byte)
    (flags : List FrameFlag) (hlen : metadata.length ≤ 16777215)
    (hflags : ∀ f ∈ flags, FrameFlag.Check f FlagMetadata = false) :
    sliceMetadataAndData (NewFrameRequestResponse id data metadata flags).header
        (NewFrameRequestResponse id data metadata flags).body 0
      = some (if metadata = [] then none else some metadata, data) := by
  by_cases hm : metadata = []
  · subst hm
    rw [NewFrameRequestResponse_nil]
    simp [sliceMetadataAndData, NewFrameHeader, Header.Flags, newFlags_check_false flags hflags]
  · rw [NewFrameRequestResponse_cons id data metadata flags hm]
    have hdec : decodeU24 (encodeU24 (metadata.length : Int) ++ metadata ++ data) 0
        = some metadata.length := by
      rw [List.append_assoc]
      exact decodeU24_encodeU24 metadata.length hlen _
    have hdrop : (encodeU24 (metadata.length : Int) ++ metadata ++ data).drop 3
        = metadata ++ data := by
      rw [List.append_assoc]
      exact List.drop_left' (encodeU24_length _)
    have hdrop2 : (encodeU24 (metadata.length : Int) ++ metadata ++ data).drop
        (3 + metadata.length) = data := by
      rw [← List.drop_drop, hdrop]
      exact List.drop_left' rfl
    simp only [sliceMetadataAndData, NewFrameHeader, Header.Flags, check_or_metadata,
      Bool.not_true, Bool.false_eq_true, if_false, hdec, Option.bind_eq_bind,
      Option.some_bind, Nat.zero_add, hdrop, hdrop2, List.take_left', hm,
      List.length_append, encodeU24_length]
    rw [if_pos (by omega)]

/-- Witness of C1: stream id 5, data "hello", metadata "meta", no extra flags. -/
theorem C1_request_response_round_trip_witness :
    sliceMetadataAndData
        (NewFrameRequestResponse 5 [104, 101, 108, 108, 111] [109, 101, 116, 97] []).header
        (NewFrameRequestResponse 5 [104, 101, 108, 108, 111] [109, 101, 116, 97] []).body 0
      = some (if ([109, 101, 116, 97] : List Byte) = [] then none
              else some [109, 101, 116, 97], [104, 101, 108, 108, 111]) :=
  C1_request_response_round_trip 5 [104, 101, 108, 108, 111] [109, 101, 116, 97] []
    (by decide) (by intro f hf; cases hf)

/-- C2: the split rule when the source is not at end-of-stream. A buffer shorter
than 3 bytes asks for more input (advance 0, no token, no error). With
`L = decodeU24(buf, 0)`: when `L ≥ 1` and `3 + L ≤ len(buf)` the function advances
by `3 + L` with the token `buf[:3+L]`, and the record handed on by the dispatch
loop is `buf[3:3+L]`, of length `L`; when `L ≥ 1` and `3 + L > len(buf)` it asks
for more input. A token is emitted in no other case. -/
theorem C2_split_rule (buf : List Byte) :
    (buf.length < 3 → splitFunc buf false = some ⟨0, none, none⟩) ∧
    (∀ L, decodeU24 buf 0 = some L →
      (1 ≤ L ∧ 3 + L ≤ buf.length →
        splitFunc buf false = some ⟨3 + L, some (buf.take (3 + L)), none⟩ ∧
        recordOf (buf.take (3 + L)) = some ((buf.drop 3).take L) ∧
        ((buf.drop 3).take L).length = L) ∧
      (1 ≤ L ∧ buf.length < 3 + L → splitFunc buf false = some ⟨0, none, none⟩)) ∧
    (∀ r, splitFunc buf false = some r → r.token.isSome →
      3 ≤ buf.length ∧ ∃ L, decodeU24 buf 0 = some L ∧ 1 ≤ L ∧ 3 + L ≤ buf.length ∧
        r.advance = 3 + L) := by
  refine ⟨splitFunc_short buf, ?_, ?_⟩
  · intro L hL
    constructor
    · rintro ⟨h1, h2⟩
      refine ⟨?_, ?_, ?_⟩
      · rw [splitFunc_long buf L hL, if_neg (by omega), if_pos (by omega), Nat.add_comm]
      · have : 3 ≤ (buf.take (3 + L)).length := by
          rw [List.length_take]; omega
        rw [recordOf, if_pos this, List.drop_take]
        simp
      · rw [List.length_take, List.length_drop]; omega
    · rintro ⟨h1, h2⟩
      rw [splitFunc_long buf L hL, if_neg (by omega), if_neg (by omega)]
  · intro r hr htok
    by_cases h3 : buf.length < 3
    · rw [splitFunc_short buf h3] at hr
      cases hr
      cases htok
    · obtain ⟨L, hL⟩ := (decodeU24_isSome_iff buf 0).mpr (by omega)
      refine ⟨by omega, L, hL, ?_⟩
      rw [splitFunc_long buf L hL] at hr
      by_cases h1 : L < 1
      · rw [if_pos h1] at hr; cases hr; cases htok
      · rw [if_neg h1] at hr
        by_cases h2 : L + 3 ≤ buf.length
        · rw [if_pos h2] at hr; cases hr
          exact ⟨by omega, by omega, Nat.add_comm _ _⟩
        · rw [if_neg h2] at hr; cases hr; cases htok

/-- Witness of C2: the buffer `00 00 02 aa bb cc` holds the complete record `aa bb`. -/
theorem C2_split_rule_witness :
    splitFunc [0, 0, 2, 0xaa, 0xbb, 0xcc] false = some ⟨3 + 2, some [0, 0, 2, 0xaa, 0xbb], none⟩ ∧
    recordOf [0, 0, 2, 0xaa, 0xbb] = some [0xaa, 0xbb] :=
  have h := ((C2_split_rule [0, 0, 2, 0xaa, 0xbb, 0xcc]).2.1 2 (by decide)).1
    ⟨by decide, by decide⟩
  ⟨h.1, h.2.1⟩

/-- C3: malformed length at the split rule. With the source not at end-of-stream the
split function returns an error iff `len(buf) ≥ 3` and the prefix decodes to a
length `L < 1`, which is the case iff the first three bytes are all zero; the error
is the bad-frame-length error, and with it no token is emitted and the advance
is 0. -/
theorem C3_split_malformed_length (buf : List Byte) :
    ∃ r, splitFunc buf false = some r ∧
      (r.err.isSome ↔ (3 ≤ buf.length ∧ ∃ L, decodeU24 buf 0 = some L ∧ L < 1)) ∧
      ((3 ≤ buf.length ∧ ∃ L, decodeU24 buf 0 = some L ∧ L < 1) ↔ buf.take 3 = [0, 0, 0]) ∧
      (r.err.isSome → r.err = some (.badFrameLength 0) ∧ r.token = none ∧ r.advance = 0) := by
  have hz : (3 ≤ buf.length ∧ ∃ L, decodeU24 buf 0 = some L ∧ L < 1) ↔ buf.take 3 = [0, 0, 0] := by
    rw [← decodeU24_zero_iff]
    constructor
    · rintro ⟨-, L, hL, h1⟩
      have : L = 0 := by omega
      rw [hL, this]
    · intro h
      exact ⟨by have := (decodeU24_isSome_iff buf 0).mp ⟨0, h⟩; omega, 0, h, by omega⟩
  by_cases h3 : buf.length < 3
  · refine ⟨_, splitFunc_short buf h3, ?_, hz, ?_⟩
    · simp only [Option.isSome_none, Bool.false_eq_true, false_iff]
      omega
    · intro h; cases h
  · obtain ⟨L, hL⟩ := (decodeU24_isSome_iff buf 0).mpr (by omega)
    refine ⟨_, splitFunc_long buf L hL, ?_, hz, ?_⟩
    · by_cases h1 : L < 1
      · rw [if_pos h1]
        simp only [Option.isSome_some, true_iff]
        exact ⟨by omega, L, hL, h1⟩
      · rw [if_neg h1]
        have : ¬ (3 ≤ buf.length ∧ ∃ L, decodeU24 buf 0 = some L ∧ L < 1) := by
          rintro ⟨-, L2, hL2, h⟩
          rw [hL] at hL2
          cases hL2
          exact h1 h
        split <;>
          exact ⟨fun h => Bool.noConfusion h, fun h => (this h).elim⟩
    · by_cases h1 : L < 1
      · rw [if_pos h1]
        have : L = 0 := by omega
        subst this
        intro _
        exact ⟨rfl, rfl, rfl⟩
      · rw [if_neg h1]
        split <;> (intro h; cases h)

/-- Witness of C3: the buffer `00 00 00 07` is rejected. -/
theorem C3_split_malformed_length_witness :
    ∃ r, splitFunc [0, 0, 0, 7] false = some r ∧
      (r.err.isSome ↔ (3 ≤ [(0 : Byte), 0, 0, 7].length ∧
        ∃ L, decodeU24 [0, 0, 0, 7] 0 = some L ∧ L < 1)) ∧
      ((3 ≤ [(0 : Byte), 0, 0, 7].length ∧ ∃ L, decodeU24 [0, 0, 0, 7] 0 = some L ∧ L < 1) ↔
        [(0 : Byte), 0, 0, 7].take 3 = [0, 0, 0]) ∧
      (r.err.isSome → r.err = some (.badFrameLength 0) ∧ r.token = none ∧ r.advance = 0) :=
  C3_split_malformed_length [0, 0, 0, 7]

/-- Counterexample to C4 as stated: one record of 6 bytes on the wire, a handler that
returns `nil`, no cancellation, and a source that ends cleanly by handing the bytes
over together with `io.EOF` in a single read. `Handle` returns `nil` and the handler
is not invoked, although `K = 1`: the split function is called with `atEOF` set and
drops the record. -/
theorem C4_counterexample :
    ValidRecord [0, 0, 0, 1, 16, 0] ∧
    Handle ⟨[(wireAll [[0, 0, 0, 1, 16, 0]], some .EOF)], .EOF⟩
        (fun _ => none) (fun _ _ _ => none)
      = ([], .returned none) := by
  decide

/-- C4 (amended): order preservation. For every sequence of records, each of length
between 6 and 16777215, written to the stream as `encodeU24(len)` followed by the
record and concatenated, however the stream is cut into non-empty reads that return
a `nil` error, the end of the stream being reported by a read of its own (no bytes,
`io.EOF`), with a handler that never returns an error and no cancellation, `Handle`
invokes the handler exactly once per record, in order, the i-th invocation receiving
the bytes of the i-th record and the header parsed from it (that is, from its first
6 bytes), and returns `nil`. -/
theorem C4_order_preservation (pieces records : List (List Byte)) (ctx : Context)
    (fn : FrameHandler) (hpieces : ∀ c ∈ pieces, c ≠ [])
    (hstream : pieces.flatten = wireAll records)
    (hvalid : ∀ record ∈ records, ValidRecord record)
    (hctx : ∀ k, ctx k = none) (hfn : ∀ tr h d, fn tr h d = none) :
    ∃ invs, Handle (Reader.clean pieces) ctx fn = (invs, .returned none) ∧
      invs.length = records.length ∧ Delivers invs records ∧
      ∀ record ∈ records, asHeader record = asHeader (record.take headerLen) := by
  have hclean := Reader.clean_isClean pieces hpieces
  have hinv := newScanner_inv _ hclean.steady
  have hst : (newScanner (Reader.clean pieces)).stream = wireAll records ++ [] := by
    rw [newScanner_stream, Reader.clean_bytes, hstream, List.append_nil]
  have hfuel : (newScanner (Reader.clean pieces)).stream.length
      < (Reader.clean pieces).size + 1 := by
    rw [newScanner_stream]
    have := Reader.bytes_length_le_size (Reader.clean pieces)
    omega
  rcases handleLoop_records ctx fn records _ _ [] [] hinv hst hfuel hvalid with
    ⟨s2, fuel2, invs, heq, hdel, ⟨hinv2, hfin2⟩, hs2, hf2⟩ | ⟨invs, e, k, -, -, -, hwhy⟩
  · obtain ⟨f, rfl⟩ : ∃ f, fuel2 = f + 1 := ⟨fuel2 - 1, by omega⟩
    have hc : classify s2.stream = .short := classify_short_of_length _ (by rw [hs2]; decide)
    refine ⟨invs, ?_, hdel.length_eq, hdel, fun record _ => (asHeader_take record).symm⟩
    rw [Handle, heq, List.nil_append, handleLoop_short ctx fn f s2 invs hinv2 hc, hfin2]
    rfl
  · rcases hwhy with ⟨j, hj⟩ | ⟨t, h, d, hf⟩
    · rw [hctx j] at hj
      cases hj
    · rw [hfn t h d] at hf
      cases hf

/-- Witness of C4: two records of 6 and 7 bytes, delivered one byte per read. -/
theorem C4_order_preservation_witness :
    ∃ invs, Handle (Reader.clean
        ((wireAll [[0, 0, 0, 1, 16, 0], [0, 0, 0, 3, 16, 0, 9]]).map (fun b => [b])))
        (fun _ => none) (fun _ _ _ => none) = (invs, .returned none) ∧
      invs.length = [[(0 : Byte), 0, 0, 1, 16, 0], [0, 0, 0, 3, 16, 0, 9]].length ∧
      Delivers invs [[0, 0, 0, 1, 16, 0], [0, 0, 0, 3, 16, 0, 9]] ∧
      ∀ record ∈ [[(0 : Byte), 0, 0, 1, 16, 0], [0, 0, 0, 3, 16, 0, 9]],
        asHeader record = asHeader (record.take headerLen) := by
  have h := C4_order_preservation
    ((wireAll [[0, 0, 0, 1, 16, 0], [0, 0, 0, 3, 16, 0, 9]]).map (fun b => [b]))
    [[0, 0, 0, 1, 16, 0], [0, 0, 0, 3, 16, 0, 9]] (fun _ => none) (fun _ _ _ => none)
    (by decide) (by decide) (by decide) (fun _ => rfl) (fun _ _ _ => rfl)
  exact h

/-- Counterexample to C5 as stated: the same 19 bytes, two records of 6 and 7 bytes,
cut into reads in two ways. Handed over in one read together with `io.EOF` they
cause no handler invocation; handed over in two reads, the second together with
`io.EOF`, they cause one. -/
theorem C5_counterexample :
    Reader.bytes
        ⟨[(wire [0, 0, 0, 1, 16, 0] ++ wire [0, 0, 0, 3, 16, 0, 9], some .EOF)], .EOF⟩
      = Reader.bytes
        ⟨[(wire [0, 0, 0, 1, 16, 0], none), (wire [0, 0, 0, 3, 16, 0, 9], some .EOF)], .EOF⟩ ∧
    Handle ⟨[(wire [0, 0, 0, 1, 16, 0] ++ wire [0, 0, 0, 3, 16, 0, 9], some .EOF)], .EOF⟩
        (fun _ => none) (fun _ _ _ => none)
      = ([], .returned none) ∧
    Handle ⟨[(wire [0, 0, 0, 1, 16, 0], none), (wire [0, 0, 0, 3, 16, 0, 9], some .EOF)], .EOF⟩
        (fun _ => none) (fun _ _ _ => none)
      = ([({ streamID := 1, frameType := 4, flags := 0 }, [0, 0, 0, 1, 16, 0])],
          .returned none) := by
  decide

/-- C5 (amended): streaming split invariance. For every byte string and every two
ways of cutting it into a sequence of non-empty reads that return a `nil` error, the
end of the stream being reported by a read of its own (no bytes, `io.EOF`), `Handle`
returns (it neither panics nor fails to terminate), and with the same context and
handler it produces the same sequence of handler invocations, with identical headers
and record bytes in the same order, and returns the same result. -/
theorem C5_split_invariance (pieces1 pieces2 : List (List Byte)) (ctx : Context)
    (fn : FrameHandler) (h1 : ∀ c ∈ pieces1, c ≠ []) (h2 : ∀ c ∈ pieces2, c ≠ [])
    (hsame : pieces1.flatten = pieces2.flatten) :
    ∃ invs err, Handle (Reader.clean pieces1) ctx fn = (invs, .returned err) ∧
      Handle (Reader.clean pieces2) ctx fn = (invs, .returned err) := by
  have hc1 := Reader.clean_isClean pieces1 h1
  have hc2 := Reader.clean_isClean pieces2 h2
  have heq : Handle (Reader.clean pieces1) ctx fn = Handle (Reader.clean pieces2) ctx fn :=
    Handle_stream ctx fn _ _ hc1.steady hc2.steady rfl
      (by rw [Reader.clean_bytes, Reader.clean_bytes, hsame])
  obtain ⟨invs, err, hres⟩ := handleLoop_returned ctx fn
    (newScanner (Reader.clean pieces1)).stream.length ((Reader.clean pieces1).size + 1)
    (newScanner (Reader.clean pieces1)) [] (newScanner_inv _ hc1.steady) rfl (Nat.le_refl _)
    (by
      rw [newScanner_stream]
      have := Reader.bytes_length_le_size (Reader.clean pieces1)
      omega)
  exact ⟨invs, err, hres, heq ▸ hres⟩

/-- Witness of C5: two records and a trailing incomplete one, as one single read and
as one read per byte. -/
theorem C5_split_invariance_witness :
    ∃ invs err,
      Handle (Reader.clean [wireAll [[0, 0, 0, 1, 16, 0], [0, 0, 0, 3, 16, 0, 9]] ++ [0, 0]])
        (fun _ => none) (fun _ _ _ => none) = (invs, .returned err) ∧
      Handle (Reader.clean
        ((wireAll [[0, 0, 0, 1, 16, 0], [0, 0, 0, 3, 16, 0, 9]] ++ [0, 0]).map (fun b => [b])))
        (fun _ => none) (fun _ _ _ => none) = (invs, .returned err) := by
  have h := C5_split_invariance
    [wireAll [[0, 0, 0, 1, 16, 0], [0, 0, 0, 3, 16, 0, 9]] ++ [0, 0]]
    ((wireAll [[0, 0, 0, 1, 16, 0], [0, 0, 0, 3, 16, 0, 9]] ++ [0, 0]).map (fun b => [b]))
    (fun _ => none) (fun _ _ _ => none) (by decide) (by decide) (by decide)
  exact h

/-- Counterexample to C6 as stated: one record of 6 bytes followed by `00 00 00 07`,
handed over in a single read together with `io.EOF`. `Handle` returns `nil`, not the
bad-frame-length error, and the handler is not invoked, although `K = 1`. -/
theorem C6_counterexample :
    ValidRecord [0, 0, 0, 1, 16, 0] ∧ decodeU24 [0, 0, 0, 7] 0 = some 0 ∧
    Handle ⟨[(wireAll [[0, 0, 0, 1, 16, 0]] ++ [0, 0, 0, 7], some .EOF)], .EOF⟩
        (fun _ => none) (fun _ _ _ => none)
      = ([], .returned none) := by
  decide

/-- C6 (amended): length validation at the loop. For every stream made of valid
records followed by a length prefix that decodes to 0 and then arbitrary further
bytes, however it is cut into non-empty reads that return a `nil` error, and
whatever the source reports once these bytes are delivered: whatever the handler
and the context do, `Handle` returns an error (never `nil`) and the handler
invocations are those of the first `k ≤ K` records, in order, so none is made for
the zero-length record or for a byte after it; and when the handler returns `nil`
throughout and no cancellation is signalled, the handler is invoked exactly `K`
times, once per record in order, and the error returned is the bad-frame-length
error. -/
theorem C6_length_validation (pieces records : List (List Byte)) (tail : List Byte)
    (final : GoError) (ctx : Context) (fn : FrameHandler) (hpieces : ∀ c ∈ pieces, c ≠ [])
    (hstream : pieces.flatten = wireAll records ++ tail)
    (hvalid : ∀ record ∈ records, ValidRecord record)
    (hzero : decodeU24 tail 0 = some 0) :
    ∃ invs e k, Handle (Reader.failing pieces final) ctx fn = (invs, .returned (some e)) ∧
      k ≤ records.length ∧ Delivers invs (records.take k) ∧
      ((∀ j, ctx j = none) → (∀ tr h d, fn tr h d = none) →
        k = records.length ∧ invs.length = records.length ∧ Delivers invs records ∧
        e = .badFrameLength 0) := by
  have hsteady := Reader.failing_isSteady pieces final hpieces
  have hinv := newScanner_inv _ hsteady
  have hst : (newScanner (Reader.failing pieces final)).stream = wireAll records ++ tail := by
    rw [newScanner_stream, Reader.failing_bytes, hstream]
  have hfuel : (newScanner (Reader.failing pieces final)).stream.length
      < (Reader.failing pieces final).size + 1 := by
    rw [newScanner_stream]
    have := Reader.bytes_length_le_size (Reader.failing pieces final)
    omega
  rcases handleLoop_records ctx fn records _ _ [] tail hinv hst hfuel hvalid with
    ⟨s2, fuel2, invs, heq, hdel, ⟨hinv2, -⟩, hs2, hf2⟩ | ⟨invs, e, k, heq, hk, hdel, hwhy⟩
  · obtain ⟨f, rfl⟩ : ∃ f, fuel2 = f + 1 := ⟨fuel2 - 1, by omega⟩
    have hc : classify s2.stream = .bad := by
      rw [hs2, classify_of_decode tail 0 hzero, if_pos (by omega)]
    refine ⟨invs, .badFrameLength 0, records.length, ?_, Nat.le_refl _, ?_, ?_⟩
    · rw [Handle, heq, List.nil_append]
      exact handleLoop_bad ctx fn f s2 invs hinv2 hc
    · rw [List.take_length]
      exact hdel
    · intro _ _
      exact ⟨rfl, hdel.length_eq, hdel, rfl⟩
  · refine ⟨invs, e, k, ?_, hk, hdel, ?_⟩
    · rw [Handle, heq, List.nil_append]
    · intro hctx hfn
      rcases hwhy with ⟨j, hj⟩ | ⟨t, h, d, hf⟩
      · rw [hctx j] at hj
        cases hj
      · rw [hfn t h d] at hf
        cases hf

/-- Witness of C6: one record, then `00 00 00`, then two more bytes, one byte per
read, and a clean end of stream. -/
theorem C6_length_validation_witness :
    ∃ invs e k, Handle (Reader.failing
        ((wireAll [[0, 0, 0, 1, 16, 0]] ++ [0, 0, 0, 7, 7]).map (fun b => [b])) .EOF)
        (fun _ => none) (fun _ _ _ => none) = (invs, .returned (some e)) ∧
      k ≤ [[(0 : Byte), 0, 0, 1, 16, 0]].length ∧
      Delivers invs ([[(0 : Byte), 0, 0, 1, 16, 0]].take k) ∧
      ((∀ j, (fun _ => none : Context) j = none) →
        (∀ tr h d, (fun _ _ _ => none : FrameHandler) tr h d = none) →
        k = [[(0 : Byte), 0, 0, 1, 16, 0]].length ∧
        invs.length = [[(0 : Byte), 0, 0, 1, 16, 0]].length ∧
        Delivers invs [[0, 0, 0, 1, 16, 0]] ∧ e = .badFrameLength 0) := by
  have h := C6_length_validation
    ((wireAll [[0, 0, 0, 1, 16, 0]] ++ [0, 0, 0, 7, 7]).map (fun b => [b]))
    [[0, 0, 0, 1, 16, 0]] [0, 0, 0, 7, 7] .EOF (fun _ => none) (fun _ _ _ => none)
    (by decide) (by decide) (by decide) (by decide)
  exact h

/-- C7: handler error propagation. For every reader, context and handler, if the
handler returns an error `e` on the `i`-th invocation (counting from 0), `Handle`
returns exactly `e` and that invocation is the last one. -/
theorem C7_handler_error (r : Reader) (ctx : Context) (fn : FrameHandler) (i : Nat)
    (inv : Invocation) (e : GoError)
    (hi : (Handle r ctx fn).1[i]? = some inv)
    (he : fn ((Handle r ctx fn).1.take i) inv.1 inv.2 = some e) :
    (Handle r ctx fn).2 = .returned (some e) ∧ (Handle r ctx fn).1.length = i + 1 :=
  (handleLoop_trace ctx fn _ _ [] (AllNil.nil fn)).error_last i inv e hi he

/-- Witness of C7: two records on the wire, a handler that rejects every record; the
first invocation fails, `Handle` returns its error and the second record is never
dispatched. -/
theorem C7_handler_error_witness :
    (Handle (Reader.clean [wireAll [[0, 0, 0, 1, 16, 0], [0, 0, 0, 3, 16, 0, 9]]])
        (fun _ => none) (fun _ _ _ => some (.other "rejected"))).2
      = .returned (some (.other "rejected")) ∧
    (Handle (Reader.clean [wireAll [[0, 0, 0, 1, 16, 0], [0, 0, 0, 3, 16, 0, 9]]])
        (fun _ => none) (fun _ _ _ => some (.other "rejected"))).1.length = 0 + 1 := by
  have h := C7_handler_error
    (Reader.clean [wireAll [[0, 0, 0, 1, 16, 0], [0, 0, 0, 3, 16, 0, 9]]])
    (fun _ => none) (fun _ _ _ => some (.other "rejected")) 0
    ({ streamID := 1, frameType := 4, flags := 0 }, [0, 0, 0, 1, 16, 0]) (.other "rejected")
    (by decide) rfl
  exact h

/-- C8: the 24-bit codec round trip at any offset. For `0 ≤ n ≤ 16777215` and any
byte strings `pre` and `post`, `decodeU24(pre ++ encodeU24(n) ++ post, len(pre)) = n`. -/
theorem C8_u24_round_trip (n : Nat) (pre post : List Byte) (h : n ≤ 16777215) :
    decodeU24 (pre ++ encodeU24 (n : Int) ++ post) pre.length = some n := by
  rw [List.append_assoc, decodeU24_append_left]
  exact decodeU24_encodeU24 n h post

/-- Witness of C8: `n = 66051 = 0x010203` between `ff` and `ee dd`. -/
theorem C8_u24_round_trip_witness :
    decodeU24 ([0xff] ++ encodeU24 ((66051 : Nat) : Int) ++ [0xee, 0xdd]) [(0xff : Byte)].length
      = some 66051 :=
  C8_u24_round_trip 66051 [0xff] [0xee, 0xdd] (by decide)

/-- C9: `encodeU24` truncates to 24 bits. For every integer `n`, negative or beyond
`16777215` included, `encodeU24(n)` has exactly 3 bytes, they are
`[(n / 65536) mod 256, (n / 256) mod 256, n mod 256]`, and read as a big-endian
number they give `n mod 2^24`. -/
theorem C9_encodeU24_truncates (n : Int) :
    (encodeU24 n).length = 3 ∧
    (encodeU24 n).map UInt8.toNat
      = [((n / 65536) % 256).toNat, ((n / 256) % 256).toNat, (n % 256).toNat] ∧
    decodeU24 (encodeU24 n) 0 = some (n % 16777216).toNat := by
  refine ⟨rfl, ?_, ?_⟩
  · rw [encodeU24_eq]
    simp only [List.map_cons, List.map_nil, byte_toNat, uint32, Nat.shiftRight_eq_div_pow,
      List.cons.injEq, and_true]
    refine ⟨?_, ?_, ?_⟩ <;> omega
  · rw [encodeU24_eq, decodeU24_cons3]
    simp only [byte_toNat, uint32, Nat.shiftRight_eq_div_pow, Nat.shiftLeft_eq,
      Option.some.injEq]
    omega

/-- C10: the body layout built by the constructor. For non-empty metadata with
`len(metadata) ≤ 16777215` the header has the Metadata flag set and the body is
`encodeU24(len(metadata)) ++ metadata ++ data`, of length
`3 + len(metadata) + len(data)`; for empty metadata the body is `data`, without a
length in front. -/
theorem C10_body_layout (id : Nat) (data metadata : List Byte) (flags : List FrameFlag) :
    (metadata ≠ [] → metadata.length ≤ 16777215 →
      FrameFlag.Check (NewFrameRequestResponse id data metadata flags).header.Flags FlagMetadata
        = true ∧
      (NewFrameRequestResponse id data metadata flags).body
        = encodeU24 (metadata.length : Int) ++ metadata ++ data ∧
      (NewFrameRequestResponse id data metadata flags).body.length
        = 3 + metadata.length + data.length) ∧
    (metadata = [] → (NewFrameRequestResponse id data metadata flags).body = data) := by
  constructor
  · intro hm _
    rw [NewFrameRequestResponse_cons id data metadata flags hm]
    refine ⟨check_or_metadata _, rfl, ?_⟩
    simp only [List.length_append, encodeU24_length]
  · intro hm
    subst hm
    rw [NewFrameRequestResponse_nil]

/-- Witness of C10: stream id 5, data "hello", metadata "meta" give the body
`00 00 04` ++ "meta" ++ "hello", of length 12, under a header with the Metadata flag. -/
theorem C10_body_layout_witness :
    FrameFlag.Check (NewFrameRequestResponse 5 [104, 101, 108, 108, 111] [109, 101, 116, 97]
        []).header.Flags FlagMetadata = true ∧
    (NewFrameRequestResponse 5 [104, 101, 108, 108, 111] [109, 101, 116, 97] []).body
      = [0x00, 0x00, 0x04] ++ [109, 101, 116, 97] ++ [104, 101, 108, 108, 111] ∧
    (NewFrameRequestResponse 5 [104, 101, 108, 108, 111] [109, 101, 116, 97] []).body.length
      = 12 :=
  (C10_body_layout 5 [104, 101, 108, 108, 111] [109, 101, 116, 97] []).1 (by decide) (by decide)

/-- C11: the slicing rule. With the Metadata flag unset and `o ≤ len(body)`,
`sliceMetadataAndData(header, body, o)` returns absent metadata and `body[o:]`. With
the flag set, `L = decodeU24(body, o)` and `L ≤ len(body) - o - 3`, it returns
`body[o+3 : o+3+L]` as present metadata and `body[o+3+L:]` as data; for `L = 0` the
metadata is present and empty, not absent. -/
theorem C11_slicing_rule (header : Header) (body : List Byte) (o : Nat) :
    (header.Flags.Check FlagMetadata = false → o ≤ body.length →
      sliceMetadataAndData header body o = some (none, body.drop o)) ∧
    (header.Flags.Check FlagMetadata = true → ∀ L, decodeU24 body o = some L →
      L ≤ body.length - o - 3 →
      sliceMetadataAndData header body o
        = some (some ((body.drop (o + 3)).take L), body.drop (o + 3 + L))) ∧
    (header.Flags.Check FlagMetadata = true → decodeU24 body o = some 0 →
      sliceMetadataAndData header body o = some (some [], body.drop (o + 3))) := by
  refine ⟨sliceMetadataAndData_unset header body o, ?_, ?_⟩
  · intro hf L hL hfit
    have h3 := (decodeU24_isSome_iff body o).mp ⟨L, hL⟩
    exact sliceMetadataAndData_set header body o L hf hL (by omega)
  · intro hf hL
    have h3 := (decodeU24_isSome_iff body o).mp ⟨0, hL⟩
    rw [sliceMetadataAndData_set header body o 0 hf hL (by omega)]
    simp

/-- Witness of C11: a header with the Metadata flag over the body `ee 00 00 02 6d 65 68 69`
at offset 1 gives the metadata `6d 65` and the data `68 69`. -/
theorem C11_slicing_rule_witness :
    sliceMetadataAndData (NewFrameHeader 1 FrameTypeRequestResponse FlagMetadata)
        [0xee, 0, 0, 2, 0x6d, 0x65, 0x68, 0x69] 1
      = some (some ((([0xee, 0, 0, 2, 0x6d, 0x65, 0x68, 0x69] : List Byte).drop (1 + 3)).take 2),
          ([0xee, 0, 0, 2, 0x6d, 0x65, 0x68, 0x69] : List Byte).drop (1 + 3 + 2)) :=
  (C11_slicing_rule (NewFrameHeader 1 FrameTypeRequestResponse FlagMetadata)
    [0xee, 0, 0, 2, 0x6d, 0x65, 0x68, 0x69] 1).2.1 (by decide) 2 (by decide) (by decide)

/-- C12: the combined slicer agrees with the single slicer. Whenever
`sliceMetadataAndData(header, body, o)` is defined, `sliceMetadata(header, body, o)` is
defined as well, whatever lies in the spare capacity of `body`, and returns the
metadata component of the combined result: absent with absent, present with present
(empty with empty). In particular the two agree wherever both are defined. -/
theorem C12_slicers_agree (header : Header) (body spare : List Byte) (o : Nat)
    (m : Option (List Byte)) (d : List Byte)
    (h : sliceMetadataAndData header body o = some (m, d)) :
    sliceMetadata header body spare o = some m ∧
    (∀ m2, sliceMetadata header body spare o = some m2 → m2 = m) := by
  have hm : sliceMetadata header body spare o = some m := by
    rcases sliceMetadataAndData_some header body o m d h with
      ⟨hf, -, rfl⟩ | ⟨hf, L, hL, hfit, rfl⟩
    · exact sliceMetadata_unset header body spare o hf
    · exact sliceMetadata_set header body spare o L hf hL hfit
  refine ⟨hm, ?_⟩
  intro m2 h2
  rw [hm] at h2
  cases h2
  rfl

/-- Witness of C12: the flag set and a declared metadata length of 0; both slicers
return a present, empty metadata. -/
theorem C12_slicers_agree_witness :
    sliceMetadata (NewFrameHeader 1 FrameTypeRequestResponse FlagMetadata)
        [0, 0, 0, 0x68, 0x69] [0xff] 0 = some (some []) ∧
    (∀ m2, sliceMetadata (NewFrameHeader 1 FrameTypeRequestResponse FlagMetadata)
        [0, 0, 0, 0x68, 0x69] [0xff] 0 = some m2 → m2 = some []) :=
  C12_slicers_agree (NewFrameHeader 1 FrameTypeRequestResponse FlagMetadata)
    [0, 0, 0, 0x68, 0x69] [0xff] 0 (some []) [0x68, 0x69] (by decide)

/-- Counterexample to C13 as stated: with no metadata and the caller-supplied flag
list `[FlagMetadata]` the header carries the Metadata flag over an empty body, so
`len(body) ≥ 3` fails. -/
theorem C13_counterexample :
    ([] : List Byte).length ≤ 16777215 ∧
    FrameFlag.Check (NewFrameRequestResponse 1 [] [] [FlagMetadata]).header.Flags FlagMetadata
      = true ∧
    ¬ (3 ≤ (NewFrameRequestResponse 1 [] [] [FlagMetadata]).body.length) := by
  decide

/-- C13 (amended): the constructor establishes the body-layout invariant when the
metadata is non-empty or no caller-supplied flag contains the Metadata bit. For
`len(metadata) ≤ 16777215` the Metadata flag is then set in the header exactly when
the metadata is non-empty, and if it is set then `len(body) ≥ 3`, the 24-bit length
read at `body[0:3]` equals `len(metadata)`, and that length is at most
`len(body) - 3`. -/
theorem C13_constructor_invariant (id : Nat) (data metadata : List Byte)
    (flags : List FrameFlag) (hlen : metadata.length ≤ 16777215)
    (hflags : metadata ≠ [] ∨ ∀ f ∈ flags, FrameFlag.Check f FlagMetadata = false) :
    (FrameFlag.Check (NewFrameRequestResponse id data metadata flags).header.Flags FlagMetadata
        = true ↔ metadata ≠ []) ∧
    (FrameFlag.Check (NewFrameRequestResponse id data metadata flags).header.Flags FlagMetadata
        = true →
      3 ≤ (NewFrameRequestResponse id data metadata flags).body.length ∧
      decodeU24 (NewFrameRequestResponse id data metadata flags).body 0
        = some metadata.length ∧
      metadata.length ≤ (NewFrameRequestResponse id data metadata flags).body.length - 3) := by
  by_cases hm : metadata = []
  · subst hm
    have hfl : ∀ f ∈ flags, FrameFlag.Check f FlagMetadata = false := by
      rcases hflags with h | h
      · exact absurd rfl h
      · exact h
    have hun : FrameFlag.Check (NewFrameRequestResponse id data [] flags).header.Flags
        FlagMetadata = false := by
      rw [NewFrameRequestResponse_nil]
      exact newFlags_check_false flags hfl
    rw [hun]
    exact ⟨⟨fun h => Bool.noConfusion h, fun h => absurd rfl h⟩, fun h => Bool.noConfusion h⟩
  · rw [NewFrameRequestResponse_cons id data metadata flags hm]
    refine ⟨⟨fun _ => hm, fun _ => check_or_metadata _⟩, fun _ => ⟨?_, ?_, ?_⟩⟩
    · simp only [List.length_append, encodeU24_length]
      omega
    · rw [List.append_assoc]
      exact decodeU24_encodeU24 metadata.length hlen _
    · simp only [List.length_append, encodeU24_length]
      omega

/-- Witness of C13: stream id 5, data "hello", metadata "meta", the extra flag list
`[FlagMetadata]`. -/
theorem C13_constructor_invariant_witness :
    3 ≤ (NewFrameRequestResponse 5 [104, 101, 108, 108, 111] [109, 101, 116, 97]
      [FlagMetadata]).body.length ∧
    decodeU24 (NewFrameRequestResponse 5 [104, 101, 108, 108, 111] [109, 101, 116, 97]
      [FlagMetadata]).body 0 = some ([109, 101, 116, 97] : List Byte).length ∧
    ([109, 101, 116, 97] : List Byte).length
      ≤ (NewFrameRequestResponse 5 [104, 101, 108, 108, 111] [109, 101, 116, 97]
        [FlagMetadata]).body.length - 3 :=
  (C13_constructor_invariant 5 [104, 101, 108, 108, 111] [109, 101, 116, 97] [FlagMetadata]
    (by decide) (Or.inl (by decide))).2 (by decide)

/-- Counterexample to C14 as stated: on the buffer `00 00 01 aa` the split function
emits a token although the declared length 1 is below the header size 6; the record
handed on has 1 byte. -/
theorem C14_counterexample :
    splitFunc [0, 0, 1, 0xaa] false = some ⟨4, some [0, 0, 1, 0xaa], none⟩ ∧
    decodeU24 [0, 0, 1, 0xaa] 0 = some 1 ∧ ¬ (headerLen ≤ 1) ∧
    recordOf [0, 0, 1, 0xaa] = some [0xaa] := by
  decide

/-- C14 (amended): every record the framing rule emits has at least one byte. When
the split function emits a token, the declared length `L` is at least 1 and the
record handed on for header parsing has exactly `L` bytes. A declared length with
`1 ≤ L < 6` is emitted like any other; such a record is rejected by header parsing
before the handler is invoked: the body of the loop returns the header error with
the invocations unchanged, and `Handle`, having dispatched the valid records that
precede it, returns that error. A record with `L ≥ 6` parses. -/
theorem C14_emitted_record_length (buf : List Byte) :
    (∀ r tok, splitFunc buf false = some r → r.token = some tok →
      ∃ L record, decodeU24 buf 0 = some L ∧ 1 ≤ L ∧ r.advance = 3 + L ∧
        recordOf tok = some record ∧ record.length = L ∧
        (L < headerLen → asHeader record = .error .malformedHeader ∧
          ∀ (ctx : Context) (fn : FrameHandler) (tr : List Invocation),
            ctx tr.length = none →
            dispatch ctx fn tr (some tok) = (tr, some (.returned (some .malformedHeader)))) ∧
        (headerLen ≤ L → ∃ hd, asHeader record = .ok hd)) ∧
    (∀ L, decodeU24 buf 0 = some L → 1 ≤ L → L < headerLen → 3 + L ≤ buf.length →
      (∃ record, splitFunc buf false = some ⟨3 + L, some (buf.take (3 + L)), none⟩ ∧
        recordOf (buf.take (3 + L)) = some record ∧ record.length = L ∧
        asHeader record = .error .malformedHeader) ∧
      ∀ (pieces records : List (List Byte)) (ctx : Context) (fn : FrameHandler),
        (∀ c ∈ pieces, c ≠ []) → pieces.flatten = wireAll records ++ buf →
        (∀ record ∈ records, ValidRecord record) →
        (∀ k, ctx k = none) → (∀ tr h d, fn tr h d = none) →
        ∃ invs, Delivers invs records ∧
          Handle (Reader.clean pieces) ctx fn
            = (invs, .returned (some .malformedHeader))) := by
  constructor
  · intro r tok h ht
    obtain ⟨L, hc, rfl⟩ := splitFunc_token buf r tok h ht
    obtain ⟨hd, h1, h2⟩ := classify_record buf L hc
    simp only [Option.some.injEq] at ht
    subst ht
    have hlen : (buf.take (L + 3)).length = L + 3 := by
      rw [List.length_take]
      omega
    have hrl : ((buf.take (L + 3)).drop 3).length = L := by
      rw [List.length_drop, hlen]
      omega
    refine ⟨L, (buf.take (L + 3)).drop 3, hd, h1, Nat.add_comm _ _, ?_, hrl, ?_, ?_⟩
    · rw [recordOf, if_pos (by omega)]
    · intro h6
      refine ⟨asHeader_short _ (by rw [hrl]; exact h6), ?_⟩
      intro ctx fn tr hctx
      exact dispatch_short ctx fn tr _ (by omega) (by omega) hctx
    · intro h6
      exact asHeader_ok _ (by rw [hrl]; exact h6)
  · intro L hL h1 h6 hfit
    have hlen : (buf.take (3 + L)).length = 3 + L := by
      rw [List.length_take]
      omega
    have hrl : ((buf.take (3 + L)).drop 3).length = L := by
      rw [List.length_drop, hlen]
      omega
    refine ⟨⟨(buf.take (3 + L)).drop 3, ?_, ?_, hrl,
      asHeader_short _ (by rw [hrl]; exact h6)⟩, ?_⟩
    · rw [splitFunc_long buf L hL, if_neg (by omega), if_pos (by omega), Nat.add_comm]
    · rw [recordOf, if_pos (by omega)]
    · intro pieces records ctx fn hpieces hstream hvalid hctx hfn
      exact Handle_short_record pieces records buf L ctx fn hpieces hstream hvalid hL h1 h6
        hfit hctx hfn

/-- Witness of C14: one valid record followed by the buffer `00 00 01 aa`, declared
length 1. The valid record reaches the handler; the 1-byte record is extracted and
rejected by header parsing, and `Handle` returns that error. -/
theorem C14_emitted_record_length_witness :
    ∃ invs, Delivers invs [[0, 0, 0, 1, 16, 0]] ∧
      Handle (Reader.clean [wire [0, 0, 0, 1, 16, 0], [0, 0, 1, 0xaa]])
          (fun _ => none) (fun _ _ _ => none)
        = (invs, .returned (some .malformedHeader)) := by
  have h := ((C14_emitted_record_length [0, 0, 1, 0xaa]).2 1 (by decide) (by decide) (by decide)
    (by decide)).2 [wire [0, 0, 0, 1, 16, 0], [0, 0, 1, 0xaa]] [[0, 0, 0, 1, 16, 0]]
    (fun _ => none) (fun _ _ _ => none) (by decide) (by decide) (by decide) (fun _ => rfl)
    (fun _ _ _ => rfl)
  exact h

/-- Counterexample to C15 as stated: the buffer `00 00 01 aa` holds a complete
record, and with the source at end-of-stream the split function emits no token and
does not advance. -/
theorem C15_counterexample :
    3 ≤ ([0, 0, 1, 0xaa] : List Byte).length ∧ decodeU24 [0, 0, 1, 0xaa] 0 = some 1 ∧
    3 + 1 ≤ ([0, 0, 1, 0xaa] : List Byte).length ∧
    splitFunc [0, 0, 1, 0xaa] true = some ⟨0, none, none⟩ := by
  decide

/-- C15 (amended): end-of-stream drops whatever remains. Called with the source at
end-of-stream the split function returns no token, no error and advance 0 for every
buffer, whether the buffer holds a complete record or not; a complete record
(`len(buf) ≥ 3`, `L = decodeU24(buf, 0) ≥ 1`, `3 + L ≤ len(buf)`) is emitted, with
advance `3 + L`, when the source is not at end-of-stream. -/
theorem C15_split_at_end_of_stream (buf : List Byte) :
    splitFunc buf true = some ⟨0, none, none⟩ ∧
    (∀ L, decodeU24 buf 0 = some L → 1 ≤ L → 3 + L ≤ buf.length →
      splitFunc buf false = some ⟨3 + L, some (buf.take (3 + L)), none⟩) := by
  refine ⟨splitFunc_atEOF buf, ?_⟩
  intro L hL h1 h2
  rw [splitFunc_long buf L hL, if_neg (by omega), if_pos (by omega), Nat.add_comm]

/-- Witness of C15: the buffer `00 00 01 aa`. -/
theorem C15_split_at_end_of_stream_witness :
    splitFunc [0, 0, 1, 0xaa] true = some ⟨0, none, none⟩ ∧
    splitFunc [0, 0, 1, 0xaa] false
      = some ⟨3 + 1, some (([0, 0, 1, 0xaa] : List Byte).take (3 + 1)), none⟩ :=
  ⟨(C15_split_at_end_of_stream [0, 0, 1, 0xaa]).1,
    (C15_split_at_end_of_stream [0, 0, 1, 0xaa]).2 1 (by decide) (by decide) (by decide)⟩

/-- C16: slicing is safe under the layout invariant. For `o ≤ len(body)` neither
`sliceMetadataAndData` nor `sliceMetadata` panics when the Metadata flag is unset;
with the flag set neither panics provided `o + 3 ≤ len(body)` and
`L = decodeU24(body, o)` satisfies `L ≤ len(body) - o - 3`. -/
theorem C16_slicing_safe (header : Header) (body spare : List Byte) (o : Nat)
    (ho : o ≤ body.length) :
    (header.Flags.Check FlagMetadata = false →
      (sliceMetadataAndData header body o).isSome = true ∧
      (sliceMetadata header body spare o).isSome = true) ∧
    (o + 3 ≤ body.length → (decodeU24 body o).isSome = true) ∧
    (header.Flags.Check FlagMetadata = true → o + 3 ≤ body.length →
      ∀ L, decodeU24 body o = some L → L ≤ body.length - o - 3 →
        (sliceMetadataAndData header body o).isSome = true ∧
        (sliceMetadata header body spare o).isSome = true) := by
  refine ⟨?_, ?_, ?_⟩
  · intro hf
    rw [sliceMetadataAndData_unset header body o hf ho, sliceMetadata_unset header body spare o hf]
    exact ⟨rfl, rfl⟩
  · intro h3
    obtain ⟨L, hL⟩ := (decodeU24_isSome_iff body o).mpr h3
    rw [hL]
    rfl
  · intro hf h3 L hL hfit
    rw [sliceMetadataAndData_set header body o L hf hL (by omega),
      sliceMetadata_set header body spare o L hf hL (by omega)]
    exact ⟨rfl, rfl⟩

/-- Witness of C16: the body `00 00 02 6d 65 68` under a header with the Metadata
flag, at offset 0. -/
theorem C16_slicing_safe_witness :
    (sliceMetadataAndData (NewFrameHeader 1 FrameTypeRequestResponse FlagMetadata)
      [0, 0, 2, 0x6d, 0x65, 0x68] 0).isSome = true ∧
    (sliceMetadata (NewFrameHeader 1 FrameTypeRequestResponse FlagMetadata)
      [0, 0, 2, 0x6d, 0x65, 0x68] [] 0).isSome = true :=
  (C16_slicing_safe (NewFrameHeader 1 FrameTypeRequestResponse FlagMetadata)
    [0, 0, 2, 0x6d, 0x65, 0x68] [] 0 (by decide)).2.2 (by decide) (by decide) 2
    (by decide) (by decide)

/-- Counterexample to C17 as stated: the read fails with a `*net.OpError` whose field
`Err` is `nil`. Line 62 calls `foo.Err.Error()` without a nil check, so `Handle`
panics: it returns neither `nil` nor the failure. -/
theorem C17_counterexample :
    Handle (Reader.failing [] (.opError none)) (fun _ => none) (fun _ _ _ => none)
      = ([], .panicked) := by
  decide

/-- C17 (amended): read-failure classification. Let the source deliver any number of
valid records, possibly followed by an incomplete remainder, in non-empty reads that
return a `nil` error, and let the next read fail, delivering nothing, with an error
`e` other than `io.EOF`; the handler returns `nil` and no cancellation is signalled.
Then the handler has been invoked once per record. If `e` is a network operation
error whose `Err` is `nil`, `Handle` panics. Otherwise `Handle` returns `nil` iff
`e` is a network operation error whose cause equals "use of closed network
connection" once every rune is lower-cased, the Kelvin sign `U+212A` counting as
`k` and the long s `U+017F` as `s`; for every other failure it returns `e` itself;
in particular it returns `nil` for a cause that differs from the text in the case
of its ASCII letters only. -/
theorem C17_read_failure (pieces records : List (List Byte)) (tail : List Byte)
    (ctx : Context) (fn : FrameHandler) (e : GoError) (hpieces : ∀ c ∈ pieces, c ≠ [])
    (hstream : pieces.flatten = wireAll records ++ tail)
    (hvalid : ∀ record ∈ records, ValidRecord record) (htail : classify tail = .short)
    (hctx : ∀ k, ctx k = none) (hfn : ∀ tr h d, fn tr h d = none) (he : e ≠ .EOF) :
    ∃ invs, Delivers invs records ∧
      (e = .opError none → Handle (Reader.failing pieces e) ctx fn = (invs, .panicked)) ∧
      (e ≠ .opError none →
        (Handle (Reader.failing pieces e) ctx fn = (invs, .returned none) ↔
          ∃ cause, e = .opError (some cause) ∧
            cause.toList.map (fun c => if c = Char.ofNat 0x212A then 'k'
                else if c = Char.ofNat 0x017F then 's' else c.toLower)
              = "use of closed network connection".toList) ∧
        ((¬ ∃ cause, e = .opError (some cause) ∧
            cause.toList.map (fun c => if c = Char.ofNat 0x212A then 'k'
                else if c = Char.ofNat 0x017F then 's' else c.toLower)
              = "use of closed network connection".toList) →
          Handle (Reader.failing pieces e) ctx fn = (invs, .returned (some e))) ∧
        (∀ cause, e = .opError (some cause) →
          cause.toList.map Char.toLower = "use of closed network connection".toList →
          Handle (Reader.failing pieces e) ctx fn = (invs, .returned none))) := by
  obtain ⟨invs, hdel, hres⟩ :=
    Handle_failing pieces records tail ctx fn e hpieces hstream hvalid htail hctx hfn
  refine ⟨invs, hdel, ?_, ?_⟩
  · intro hnil
    rw [hres, hnil, endOfStream_nilCause]
  · intro hn
    have hiff : isClosedConn e = some true ↔
        ∃ cause, e = .opError (some cause) ∧
          cause.toList.map (fun c => if c = Char.ofNat 0x212A then 'k'
              else if c = Char.ofNat 0x017F then 's' else c.toLower)
            = "use of closed network connection".toList := by
      rw [isClosedConn_iff]
      constructor
      · rintro ⟨cause, h1, h2⟩
        exact ⟨cause, h1, by rw [← map_foldRune_eq]; exact h2⟩
      · rintro ⟨cause, h1, h2⟩
        exact ⟨cause, h1, by rw [map_foldRune_eq]; exact h2⟩
    rcases endOfStream_cases e he hn with ⟨hc, hend⟩ | ⟨hc, hend⟩
    · rw [hend] at hres
      refine ⟨⟨fun _ => hiff.mp hc, fun _ => hres⟩, ?_, fun _ _ _ => hres⟩
      intro hno
      exact absurd (hiff.mp hc) hno
    · rw [hend] at hres
      have hnot : ¬ isClosedConn e = some true := by rw [hc]; simp
      refine ⟨⟨?_, fun h => absurd (hiff.mpr h) hnot⟩, fun _ => hres, ?_⟩
      · intro h
        rw [hres] at h
        cases h
      · intro cause hcause hlow
        exfalso
        apply hnot
        rw [isClosedConn_iff]
        exact ⟨cause, hcause, map_foldRune_of_toLower _ _ hlow (by decide) (by decide)⟩

/-- Witness of C17: two records and two stray bytes, then a read that fails. With a
`*net.OpError` whose cause is "Use of CLOSED Network Connection" `Handle` returns
`nil`; with a `*net.OpError` whose cause is "connection reset by peer", and with
another error whose text is "use of closed network connection", it returns that
error. -/
theorem C17_read_failure_witness :
    (∃ invs, Delivers invs [[0, 0, 0, 1, 16, 0], [0, 0, 0, 3, 16, 0, 9]] ∧
      Handle (Reader.failing [wireAll [[0, 0, 0, 1, 16, 0], [0, 0, 0, 3, 16, 0, 9]] ++ [0, 0]]
          (.opError (some "Use of CLOSED Network Connection")))
        (fun _ => none) (fun _ _ _ => none) = (invs, .returned none)) ∧
    (∃ invs, Delivers invs [[0, 0, 0, 1, 16, 0], [0, 0, 0, 3, 16, 0, 9]] ∧
      Handle (Reader.failing [wireAll [[0, 0, 0, 1, 16, 0], [0, 0, 0, 3, 16, 0, 9]] ++ [0, 0]]
          (.opError (some "connection reset by peer")))
        (fun _ => none) (fun _ _ _ => none)
        = (invs, .returned (some (.opError (some "connection reset by peer"))))) ∧
    (∃ invs, Delivers invs [[0, 0, 0, 1, 16, 0], [0, 0, 0, 3, 16, 0, 9]] ∧
      Handle (Reader.failing [wireAll [[0, 0, 0, 1, 16, 0], [0, 0, 0, 3, 16, 0, 9]] ++ [0, 0]]
          (.other "use of closed network connection"))
        (fun _ => none) (fun _ _ _ => none)
        = (invs, .returned (some (.other "use of closed network connection")))) := by
  refine ⟨?_, ?_, ?_⟩
  · obtain ⟨invs, hdel, -, h⟩ := C17_read_failure
      [wireAll [[0, 0, 0, 1, 16, 0], [0, 0, 0, 3, 16, 0, 9]] ++ [0, 0]]
      [[0, 0, 0, 1, 16, 0], [0, 0, 0, 3, 16, 0, 9]] [0, 0] (fun _ => none) (fun _ _ _ => none)
      (.opError (some "Use of CLOSED Network Connection"))
      (by decide) (by decide) (by decide) (by decide) (fun _ => rfl) (fun _ _ _ => rfl)
      (by intro h; cases h)
    exact ⟨invs, hdel, (h (by intro h; cases h)).2.2 _ rfl (by decide)⟩
  · obtain ⟨invs, hdel, -, h⟩ := C17_read_failure
      [wireAll [[0, 0, 0, 1, 16, 0], [0, 0, 0, 3, 16, 0, 9]] ++ [0, 0]]
      [[0, 0, 0, 1, 16, 0], [0, 0, 0, 3, 16, 0, 9]] [0, 0] (fun _ => none) (fun _ _ _ => none)
      (.opError (some "connection reset by peer"))
      (by decide) (by decide) (by decide) (by decide) (fun _ => rfl) (fun _ _ _ => rfl)
      (by intro h; cases h)
    refine ⟨invs, hdel, (h (by intro h; cases h)).2.1 ?_⟩
    rintro ⟨cause, hc, hfold⟩
    cases hc
    revert hfold
    decide
  · obtain ⟨invs, hdel, -, h⟩ := C17_read_failure
      [wireAll [[0, 0, 0, 1, 16, 0], [0, 0, 0, 3, 16, 0, 9]] ++ [0, 0]]
      [[0, 0, 0, 1, 16, 0], [0, 0, 0, 3, 16, 0, 9]] [0, 0] (fun _ => none) (fun _ _ _ => none)
      (.other "use of closed network connection")
      (by decide) (by decide) (by decide) (by decide) (fun _ => rfl) (fun _ _ _ => rfl)
      (by intro h; cases h)
    refine ⟨invs, hdel, (h (by intro h; cases h)).2.1 ?_⟩
    rintro ⟨cause, hc, -⟩
    cases hc

/-- C18: cancellation is checked once per extracted record, before its dispatch. For
every reader and handler, let the context report no cancellation at the checks
before the `i`-th (counting from 0) and the error `e` at the `i`-th. If the run
extracts an `i`-th record, whether or not the header of that record parses, then
`Handle` returns `e`, the handler is invoked neither for that record nor for a later
one, and the invocations made are exactly the first `i` of the run without
cancellation. If the run extracts no `i`-th record, the signal is never looked at
and the run is the one without cancellation. An `i`-th record is extracted whenever
the run without cancellation makes more than `i` invocations, and whenever the
source delivers, in non-empty reads that return a `nil` error, `i` valid records on
which the handler returns `nil`, followed by one more complete record of any length
from 1 to 16777215. -/
theorem C18_cancellation (r : Reader) (ctx : Context) (fn : FrameHandler) (i : Nat)
    (e : GoError) (hbefore : ∀ j, j < i → ctx j = none) (hat : ctx i = some e) :
    (Extracts r fn i = true →
      Handle r ctx fn = ((Handle r (fun _ => none) fn).1.take i, .returned (some e)) ∧
      (Handle r ctx fn).1.length = i) ∧
    (Extracts r fn i = false → Handle r ctx fn = Handle r (fun _ => none) fn) ∧
    (i < (Handle r (fun _ => none) fn).1.length → Extracts r fn i = true) ∧
    (∀ (pieces records : List (List Byte)) (x rest : List Byte) (final : GoError),
      r = Reader.failing pieces final → (∀ c ∈ pieces, c ≠ []) →
      pieces.flatten = wireAll records ++ (wire x ++ rest) →
      (∀ record ∈ records, ValidRecord record) → records.length = i →
      1 ≤ x.length → x.length ≤ 16777215 →
      (∀ tr h d, tr.length < i → fn tr h d = none) →
      Extracts r fn i = true) := by
  refine ⟨?_, ?_, ?_, ?_⟩
  · intro hx
    obtain ⟨h, hlen⟩ := extractsLoop_cancel ctx fn i e hbefore hat (r.size + 1) (newScanner r) []
      (Nat.zero_le _) hx
    refine ⟨h, ?_⟩
    rw [Handle, h]
    simp only [List.length_take]
    omega
  · intro hx
    exact extractsLoop_not ctx fn i hbefore (r.size + 1) (newScanner r) [] (Nat.zero_le _) hx
  · intro hlt
    exact extractsLoop_of_trace fn i (r.size + 1) (newScanner r) [] (Nat.zero_le _) hlt
  · intro pieces records x rest final hr hpieces hstream hvalid hlen hx1 hx2 hfn
    subst hr
    subst hlen
    exact Extracts_records pieces records x rest final fn hpieces hstream hvalid hx1 hx2 hfn

/-- Witness of C18. First the single record `aa`, whose header does not parse, with
cancellation signalled when it has been extracted: `Handle` returns the cancellation
error, where the run without cancellation returns the header error. Then three
records, cancellation signalled when the second one (index 1) has been extracted:
the handler sees the first record only. -/
theorem C18_cancellation_witness :
    (Extracts (Reader.clean [wire [0xaa]]) (fun _ _ _ => none) 0 = true ∧
      Handle (Reader.clean [wire [0xaa]])
          (fun k => if k = 0 then some (.other "context canceled") else none)
          (fun _ _ _ => none)
        = ([], .returned (some (.other "context canceled"))) ∧
      Handle (Reader.clean [wire [0xaa]]) (fun _ => none) (fun _ _ _ => none)
        = ([], .returned (some .malformedHeader))) ∧
    (Handle (Reader.failing [wireAll [[0, 0, 0, 1, 16, 0], [0, 0, 0, 3, 16, 0, 9],
          [0, 0, 0, 5, 16, 0]]] .EOF)
        (fun k => if k = 1 then some (.other "context canceled") else none)
        (fun _ _ _ => none)
      = ((Handle (Reader.failing [wireAll [[0, 0, 0, 1, 16, 0], [0, 0, 0, 3, 16, 0, 9],
          [0, 0, 0, 5, 16, 0]]] .EOF) (fun _ => none) (fun _ _ _ => none)).1.take 1,
        .returned (some (.other "context canceled"))) ∧
      (Handle (Reader.failing [wireAll [[0, 0, 0, 1, 16, 0], [0, 0, 0, 3, 16, 0, 9],
          [0, 0, 0, 5, 16, 0]]] .EOF)
        (fun k => if k = 1 then some (.other "context canceled") else none)
        (fun _ _ _ => none)).1.length = 1) := by
  constructor
  · have h := (C18_cancellation (Reader.clean [wire [0xaa]])
      (fun k => if k = 0 then some (.other "context canceled") else none)
      (fun _ _ _ => none) 0 (.other "context canceled")
      (by intro j hj; omega) rfl).1 (by decide)
    have h1 := h.1
    simp only [List.take_zero] at h1
    exact ⟨by decide, h1, by decide⟩
  · have hthm := C18_cancellation
      (Reader.failing [wireAll [[0, 0, 0, 1, 16, 0], [0, 0, 0, 3, 16, 0, 9],
        [0, 0, 0, 5, 16, 0]]] .EOF)
      (fun k => if k = 1 then some (.other "context canceled") else none)
      (fun _ _ _ => none) 1 (.other "context canceled")
      (by intro j hj; have : j = 0 := by omega
          subst this; rfl)
      rfl
    have hext := hthm.2.2.2
      [wireAll [[0, 0, 0, 1, 16, 0], [0, 0, 0, 3, 16, 0, 9], [0, 0, 0, 5, 16, 0]]]
      [[0, 0, 0, 1, 16, 0]] [0, 0, 0, 3, 16, 0, 9] (wire [0, 0, 0, 5, 16, 0]) .EOF rfl
      (by decide) (by decide) (by decide) rfl (by decide) (by decide) (fun _ _ _ _ => rfl)
    exact hthm.1 hext

/-- C19: no length prefix can declare a record beyond the buffer cap. For every
buffer of at least 3 bytes `decodeU24(buf, 0)` is defined and at most 16777215, so
the full record size `3 + decodeU24(buf, 0)` is at most 16777218, strictly less than
`maxBuffSize = 16*1024*1024 + 3 = 16777219`. -/
theorem C19_length_below_cap (buf : List Byte) (h : 3 ≤ buf.length) :
    ∃ L, decodeU24 buf 0 = some L ∧ 0 ≤ L ∧ L ≤ 16777215 ∧ 3 + L ≤ 16777218 ∧
      3 + L < maxBuffSize ∧ maxBuffSize = 16 * 1024 * 1024 + 3 ∧ maxBuffSize = 16777219 := by
  obtain ⟨L, hL⟩ := (decodeU24_isSome_iff buf 0).mpr (by omega)
  have hlt := decodeU24_lt buf 0 L hL
  have hmax : maxBuffSize = 16777219 := by decide
  exact ⟨L, hL, Nat.zero_le _, hlt, by omega, by omega, rfl, hmax⟩

/-- Witness of C19: the largest prefix, `ff ff ff`. -/
theorem C19_length_below_cap_witness :
    ∃ L, decodeU24 [0xff, 0xff, 0xff] 0 = some L ∧ 0 ≤ L ∧ L ≤ 16777215 ∧ 3 + L ≤ 16777218 ∧
      3 + L < maxBuffSize ∧ maxBuffSize = 16 * 1024 * 1024 + 3 ∧ maxBuffSize = 16777219 :=
  C19_length_below_cap [0xff, 0xff, 0xff] (by decide)

/-- C20: the split decision is stable under more input. With the source not at
end-of-stream, if the split function emits a token on `buf` it returns the same
advance and the same token on `buf ++ extra`, and if it returns the bad-length error
on `buf` it returns the same error, with no token and advance 0, on `buf ++ extra`. -/
theorem C20_split_stable (buf extra : List Byte) (r : SplitResult)
    (h : splitFunc buf false = some r) :
    (r.token.isSome = true → splitFunc (buf ++ extra) false = some r) ∧
    (r.err.isSome = true → splitFunc (buf ++ extra) false = some r) := by
  constructor
  · intro ht
    obtain ⟨tok, htok⟩ := Option.isSome_iff_exists.mp ht
    obtain ⟨L, hc, rfl⟩ := splitFunc_token buf r tok h htok
    obtain ⟨-, -, hlen⟩ := classify_record buf L hc
    rw [splitFunc_classify, classify_append_record buf extra L hc]
    simp only [List.take_append_of_le_length hlen]
  · intro he
    obtain ⟨e, hee⟩ := Option.isSome_iff_exists.mp he
    obtain ⟨hc, rfl⟩ := splitFunc_error buf r e h hee
    rw [splitFunc_classify, classify_append_bad buf extra hc]

/-- Witness of C20: the record `00 00 01 aa` followed later by `bb cc`. -/
theorem C20_split_stable_witness :
    splitFunc ([0, 0, 1, 0xaa] ++ [0xbb, 0xcc]) false = some ⟨4, some [0, 0, 1, 0xaa], none⟩ :=
  (C20_split_stable [0, 0, 1, 0xaa] [0xbb, 0xcc] ⟨4, some [0, 0, 1, 0xaa], none⟩
    (by decide)).1 rfl

end Rsocket
